import Mathlib

/-!
# Verification of `humanencoding` (binary data ↔ dictionary words)

Shallow embedding of `src/humanencoding/encoder.py` (a Python 2 module:
`bytes` is `str`, `binascii.crc32` returns a signed 32-bit int).

Bytes are modelled as `Fin 256`; the encoded token stream as `List String`.
Fallible code returns `Except Err _`, where `Err` distinguishes the
failure sites of the single `HumanEncodingError` class together with the
Python built-in errors the module can raise.
-/

namespace HumanEncoding

/-- Failure values: the distinct `HumanEncodingError` sites of the source
plus the Python built-in errors its code can raise (`IndexError` from
`words[-1]` on an empty list, `NameError` from the unbound name `string`
in `encode`'s return statement). -/
inductive Err where
  | invalidWordlist
  | unknownWord
  | checksumMismatch
  | sizeLimitExceeded
  | indexError
  | nameError
  deriving DecidableEq, Repr

def WORDLIST_SIZE : Nat := 65536

/-! ## Wordlist provider

The wordlist module `humanencoding/wordlist_v1.py` is not part of the
sources under verification; only `encoder.py` references it.  The provider
is therefore modelled from the spec. -/

/-- Sixteen lowercase letters used as digits of a synthetic word. -/
def wordLetters : List Char := ['a','b','c','d','e','f','g','h','i','j','k','l','m','n','o','p']

def wordLetter (d : Nat) : Char := wordLetters.getD d '?'

def unLetter (c : Char) : Nat := wordLetters.indexOf c

/-- The synthetic word of a non-scenario index: `'w'` followed by the four
base-16 digit letters of the index, least significant first. -/
def genWord (i : Nat) : String :=
  String.mk ['w', wordLetter (i % 16), wordLetter (i / 16 % 16),
             wordLetter (i / 256 % 16), wordLetter (i / 4096 % 16)]

/-- Modelled from the spec: `wordAt(index)` of the version-1 wordlist
(an ordered list of 65536 distinct lowercase words, none equal to the
reserved marker tokens `"check"` and `"null"`).  The five indices pinned
down by the spec's literal scenarios carry their reference words
(`b"te"` ↦ 25972 ↦ `handset`, `b"st"` ↦ 29811 ↦ `interview`,
`b"a\0"` ↦ 97 ↦ `abilene`, and the two checksum words of `b"test"`:
25972... crc low half 32268 ↦ `laughingly`, high half 55423 ↦ `sterility`);
every other index is rendered as `'w'` followed by four base-16 digit
letters, which keeps the list injective and easily invertible. -/
def wordAt (i : Nat) : String :=
  if i = 25972 then "handset"
  else if i = 29811 then "interview"
  else if i = 97 then "abilene"
  else if i = 32268 then "laughingly"
  else if i = 55423 then "sterility"
  else genWord i

/-- Recover the index of a synthetic word; `none` for anything that is not
`'w'` plus four digit letters, and for the five digit strings shadowed by a
scenario word (those digit strings are not in the modelled list). -/
def parseGen (l : List Char) : Option Nat :=
  match l with
  | ['w', c0, c1, c2, c3] =>
    if unLetter c0 < 16 ∧ unLetter c1 < 16 ∧ unLetter c2 < 16 ∧ unLetter c3 < 16 then
      let n := unLetter c0 + 16 * unLetter c1 + 256 * unLetter c2 + 4096 * unLetter c3
      if n = 25972 ∨ n = 29811 ∨ n = 97 ∨ n = 32268 ∨ n = 55423 then none
      else some n
    else none
  | _ => none

/-- Modelled from the spec: `indexOf(word)` of the version-1 wordlist;
`none` when the word is absent (the source's `wordlist.index` raising
`ValueError`). -/
def indexOfWord (s : String) : Option Nat :=
  if s = "handset" then some 25972
  else if s = "interview" then some 29811
  else if s = "abilene" then some 97
  else if s = "laughingly" then some 32268
  else if s = "sterility" then some 55423
  else parseGen s.data

/-- Python's `str.lower()` restricted to this module's ASCII domain. -/
def pyLower (s : String) : String := String.mk (s.data.map Char.toLower)

/-! ## Chunk codec (`_bytes_to_int` / `_int_to_bytes`: `'<H'`, little-endian) -/

def byteLo (v : Nat) : Fin 256 := ⟨v % 256, by omega⟩

def byteHi (v : Nat) : Fin 256 := ⟨v / 256 % 256, by omega⟩

/-- `pack('<H', v)`: two little-endian bytes of a 16-bit value. -/
def intToBytes (v : Nat) : List (Fin 256) := [byteLo v, byteHi v]

/-- `unpack('<H', ab)`: the 16-bit value of two little-endian bytes. -/
def bytesToInt (a b : Fin 256) : Nat := a.val + 256 * b.val

/-- Split an (even-length) byte buffer into consecutive 16-bit chunk values,
as `encode`'s loop does via `binary_data[i:i+2]` / `unpack('<H')`.
A trailing single byte cannot occur (the buffer is padded to even length
before this is called); it is mapped to no chunk. -/
def toChunks : List (Fin 256) → List Nat
  | a :: b :: rest => bytesToInt a b :: toChunks rest
  | _ => []

/-- Concatenation of the 2-byte chunks of each 16-bit value, as `decode`'s
loop builds `output`. -/
def bytesOfChunks : List Nat → List (Fin 256)
  | [] => []
  | i :: rest => intToBytes i ++ bytesOfChunks rest

/-! ## CRC-32 (`binascii.crc32`: reflected polynomial 0xEDB88320,
initial value and final xor 0xFFFFFFFF; Python 2 returns it signed) -/

def crcPoly : Nat := 0xEDB88320

def crcStep1 (c : Nat) : Nat :=
  if c % 2 = 1 then c / 2 ^^^ crcPoly else c / 2

def crcStep8 (c : Nat) : Nat :=
  crcStep1 (crcStep1 (crcStep1 (crcStep1 (crcStep1 (crcStep1 (crcStep1 (crcStep1 c)))))))

def crcByte (c : Nat) (b : Fin 256) : Nat := crcStep8 (c ^^^ b.val)

def crcRaw (init : Nat) (m : List (Fin 256)) : Nat := m.foldl crcByte init

/-- The unsigned 32-bit CRC-32 of a byte sequence. -/
def crc32u (m : List (Fin 256)) : Nat := crcRaw 0xFFFFFFFF m ^^^ 0xFFFFFFFF

/-- Reinterpret an unsigned 32-bit value as a signed one (two's complement),
as Python 2's `binascii.crc32` reports it. -/
def toSigned32 (u : Nat) : Int := if u < 2 ^ 31 then (u : Int) else (u : Int) - 2 ^ 32

/-- `binascii.crc32` as the source observes it: a signed 32-bit integer. -/
def crc32s (m : List (Fin 256)) : Int := toSigned32 (crc32u m)

/-- `pack('<i', v)`: four little-endian bytes of a signed 32-bit integer. -/
def packInt32 (v : Int) : List (Fin 256) :=
  let u := (v % (2 ^ 32 : Int)).toNat
  [⟨u % 256, by omega⟩, ⟨u / 256 % 256, by omega⟩,
   ⟨u / 65536 % 256, by omega⟩, ⟨u / 16777216 % 256, by omega⟩]

/-- `unpack('<i', bs)[0]`: the signed 32-bit integer of four little-endian
bytes. -/
def unpackInt32 (bs : List (Fin 256)) : Int :=
  toSigned32 ((bs.getD 0 0).val + 256 * (bs.getD 1 0).val
    + 65536 * (bs.getD 2 0).val + 16777216 * (bs.getD 3 0).val)

/-! ## Encoder -/

/-- The working copy of the input: `binary_data += '\0'` when the length is
odd. -/
def padIf (data : List (Fin 256)) : List (Fin 256) :=
  if data.length % 2 = 1 then data ++ [0] else data

/-- `encode`'s accumulated `encoded_output`: one word per 2-byte chunk, the
padding marker when a pad byte was added, and — when a checksum was
requested — the checksum marker followed by the two words of
`pack('<i', crc32(original unpadded data))` split as bytes 0–1 / 2–3. -/
def encodeWords (data : List (Fin 256)) (checksum : Bool) : List String :=
  let d' := padIf data
  let dw := (toChunks d').map wordAt
  let out1 := if data.length % 2 = 1 then dw ++ ["null"] else dw
  if checksum then
    let cb := packInt32 (crc32s data)
    out1 ++ ["check", wordAt (bytesToInt (cb.getD 0 0) (cb.getD 1 0)),
             wordAt (bytesToInt (cb.getD 2 0) (cb.getD 3 0))]
  else out1

/-- The whole of `encode`.  Its final statement is
`return ' '.join(encoded_output) if string else encoded_output`, and the
name `string` is unbound — the parameter is called `return_string` — so
every call that reaches the return raises `NameError`. -/
def encode (data : List (Fin 256)) (checksum return_string : Bool) : Except Err (List String) :=
  let _encoded_output := encodeWords data checksum
  Except.error Err.nameError

/-! ## Decoder -/

/-- `wordlist.index(word)` wrapped by `_word_to_chunk`'s error handling. -/
def lookupWord (w : String) : Except Err Nat :=
  match indexOfWord w with
  | some i => Except.ok i
  | none => Except.error Err.unknownWord

/-- `len(words) > 3 and words[-3] == CHECKSUM_WORD`. -/
def hasCSMarker (ws : List String) : Bool :=
  decide (3 < ws.length) && (ws.getD (ws.length - 3) "" == "check")

/-- `checksum_words = words[-2:]` when the marker test passes, else `[]`. -/
def recordedCS (ws : List String) : List String :=
  if hasCSMarker ws then ws.drop (ws.length - 2) else []

/-- `words = words[:-3]` when the marker test passes. -/
def afterCSStrip (ws : List String) : List String :=
  if hasCSMarker ws then ws.take (ws.length - 3) else ws

/-- `decode`'s preprocessing: lowercase every word, strip a checksum suffix
(`words[-3] == 'check'` guarded by `len(words) > 3`), then test
`words[-1] == 'null'` — which raises `IndexError` when the sequence is
empty — and strip the padding marker.  Returns (remaining words,
recorded checksum words, padding flag). -/
def stripMarkers (input : List String) : Except Err (List String × List String × Bool) :=
  match (afterCSStrip (input.map pyLower)).getLast? with
  | none => Except.error Err.indexError
  | some lw =>
    if lw == "null" then
      Except.ok ((afterCSStrip (input.map pyLower)).dropLast,
                 recordedCS (input.map pyLower), true)
    else
      Except.ok (afterCSStrip (input.map pyLower), recordedCS (input.map pyLower), false)

/-- `decode`'s word loop: `output += _word_to_chunk(word, wordlist)`. -/
def mapLookup : List String → Except Err (List Nat)
  | [] => Except.ok []
  | w :: rest =>
    match lookupWord w with
    | Except.error e => Except.error e
    | Except.ok i =>
      match mapLookup rest with
      | Except.error e => Except.error e
      | Except.ok is => Except.ok (i :: is)

/-- `decode`'s checksum verification: `checksum_words` is either empty (the
`if checksum_words:` test fails and `output` is returned) or exactly the two
recorded words, which are looked up, repacked as four little-endian bytes,
unpacked as a signed 32-bit integer and compared against the CRC-32 of the
decoded buffer. -/
def checksumCheck (cws : List String) (out : List (Fin 256)) : Except Err (List (Fin 256)) :=
  match cws with
  | [w1, w2] =>
    match lookupWord w1 with
    | Except.error e => Except.error e
    | Except.ok i1 =>
      match lookupWord w2 with
      | Except.error e => Except.error e
      | Except.ok i2 =>
        if unpackInt32 (intToBytes i1 ++ intToBytes i2) ≠ crc32s out
        then Except.error Err.checksumMismatch
        else Except.ok out
  | _ => Except.ok out

/-- `decode` after marker stripping: map the remaining words back to chunks,
concatenate, drop the final byte when padded, verify a recorded checksum. -/
def decodeTail (ws3 cws : List String) (isPad : Bool) : Except Err (List (Fin 256)) :=
  match mapLookup ws3 with
  | Except.error e => Except.error e
  | Except.ok idxs =>
    checksumCheck cws (if isPad then (bytesOfChunks idxs).dropLast else bytesOfChunks idxs)

/-- The whole of `decode` on an explicit word sequence (a string input is
`split()` into exactly such a sequence). -/
def decodeWords (input : List String) : Except Err (List (Fin 256)) :=
  match stripMarkers input with
  | Except.error e => Except.error e
  | Except.ok (ws3, cws, isPad) => decodeTail ws3 cws isPad

/-! ## Wordlist loading and its cache (`lazily_load_wordlist`)

The source keeps one module-global `_wordlist` list; the function returns
it whenever it is non-empty, regardless of the requested version, and
otherwise imports `wordlist_v{version}` and validates its length.  The
module registry is abstracted as a partial map from version to word list
(`none` models a failing import or a module without a usable `words`
attribute), and the global cache is passed and returned explicitly. -/
def lazilyLoadWordlist (resources : Nat → Option (List String)) (version : Nat)
    (cache : List String) : Except Err (List String × List String) :=
  if cache.isEmpty then
    match resources version with
    | none => Except.error Err.invalidWordlist
    | some ws =>
      if ws.isEmpty then Except.error Err.invalidWordlist
      else if ws.length ≠ WORDLIST_SIZE then Except.error Err.invalidWordlist
      else Except.ok (ws, ws)
  else Except.ok (cache, cache)

/-- Modelled from the spec (§3, the sentence under test in C4): the checksum
words are the CRC-32 "split into two 2-byte big-endian-packed halves, each
independently chunk-mapped" — big-endian packing of the 32-bit value gives
the byte sequence [b3, b2, b1, b0]; the halves (bytes 0–1, bytes 2–3) are
each mapped through the 2-byte chunk codec and the wordlist lookup. -/
def checksumWordsBE (data : List (Fin 256)) : List String :=
  let u := crc32u data
  [wordAt (bytesToInt ⟨u / 16777216 % 256, by omega⟩ ⟨u / 65536 % 256, by omega⟩),
   wordAt (bytesToInt ⟨u / 256 % 256, by omega⟩ ⟨u % 256, by omega⟩)]

/-! ## Wordlist provider lemmas -/

theorem unLetter_wordLetter : ∀ d : Nat, d < 16 → unLetter (wordLetter d) = d := by decide

theorem toLower_w : 'w'.toLower = 'w' := by decide

theorem toLower_wordLetter (d : Nat) : (wordLetter d).toLower = wordLetter d := by
  rcases Nat.lt_or_ge d 16 with h | h
  · exact (by decide : ∀ e, e < 16 → (wordLetter e).toLower = wordLetter e) d h
  · have hq : wordLetter d = '?' := by
      unfold wordLetter
      rw [List.getD_eq_getElem?_getD, List.getElem?_eq_none (by simp [wordLetters]; omega)]
      rfl
    rw [hq]; decide

theorem genWord_length (i : Nat) : (genWord i).length = 5 := rfl

theorem genWord_head (i : Nat) : (genWord i).data.headD 'z' = 'w' := rfl

theorem genWord_ne_handset (i : Nat) : genWord i ≠ "handset" := fun h => by
  have hl := congrArg String.length h
  rw [genWord_length] at hl
  exact absurd hl (by decide)

theorem genWord_ne_interview (i : Nat) : genWord i ≠ "interview" := fun h => by
  have hl := congrArg String.length h
  rw [genWord_length] at hl
  exact absurd hl (by decide)

theorem genWord_ne_abilene (i : Nat) : genWord i ≠ "abilene" := fun h => by
  have hl := congrArg String.length h
  rw [genWord_length] at hl
  exact absurd hl (by decide)

theorem genWord_ne_laughingly (i : Nat) : genWord i ≠ "laughingly" := fun h => by
  have hl := congrArg String.length h
  rw [genWord_length] at hl
  exact absurd hl (by decide)

theorem genWord_ne_sterility (i : Nat) : genWord i ≠ "sterility" := fun h => by
  have hl := congrArg String.length h
  rw [genWord_length] at hl
  exact absurd hl (by decide)

theorem genWord_ne_marker_check (i : Nat) : genWord i ≠ "check" := fun h => by
  have hh := congrArg (fun s => s.data.headD 'z') h
  simp only [genWord_head] at hh
  exact absurd hh (by decide)

theorem genWord_ne_marker_null (i : Nat) : genWord i ≠ "null" := fun h => by
  have hl := congrArg String.length h
  rw [genWord_length] at hl
  exact absurd hl (by decide)

theorem wordAt_mem (i : Nat) :
    wordAt i = "handset" ∨ wordAt i = "interview" ∨ wordAt i = "abilene" ∨
    wordAt i = "laughingly" ∨ wordAt i = "sterility" ∨ wordAt i = genWord i := by
  unfold wordAt; split_ifs <;> simp

theorem wordAt_ne_marker_check (i : Nat) : wordAt i ≠ "check" := by
  rcases wordAt_mem i with h | h | h | h | h | h <;> rw [h]
  · decide
  · decide
  · decide
  · decide
  · decide
  · exact genWord_ne_marker_check i

theorem wordAt_ne_marker_null (i : Nat) : wordAt i ≠ "null" := by
  rcases wordAt_mem i with h | h | h | h | h | h <;> rw [h]
  · decide
  · decide
  · decide
  · decide
  · decide
  · exact genWord_ne_marker_null i

theorem pyLower_genWord (i : Nat) : pyLower (genWord i) = genWord i := by
  unfold pyLower genWord
  simp [toLower_wordLetter, toLower_w]

theorem pyLower_wordAt (i : Nat) : pyLower (wordAt i) = wordAt i := by
  rcases wordAt_mem i with h | h | h | h | h | h <;> rw [h]
  · decide
  · decide
  · decide
  · decide
  · decide
  · exact pyLower_genWord i

theorem wordAt_of_generic {i : Nat} (h1 : i ≠ 25972) (h2 : i ≠ 29811) (h3 : i ≠ 97)
    (h4 : i ≠ 32268) (h5 : i ≠ 55423) : wordAt i = genWord i := by
  unfold wordAt
  rw [if_neg h1, if_neg h2, if_neg h3, if_neg h4, if_neg h5]

theorem parseGen_cons (c0 c1 c2 c3 : Char) :
    parseGen ['w', c0, c1, c2, c3] =
      (if unLetter c0 < 16 ∧ unLetter c1 < 16 ∧ unLetter c2 < 16 ∧ unLetter c3 < 16 then
        if unLetter c0 + 16 * unLetter c1 + 256 * unLetter c2 + 4096 * unLetter c3 = 25972 ∨
           unLetter c0 + 16 * unLetter c1 + 256 * unLetter c2 + 4096 * unLetter c3 = 29811 ∨
           unLetter c0 + 16 * unLetter c1 + 256 * unLetter c2 + 4096 * unLetter c3 = 97 ∨
           unLetter c0 + 16 * unLetter c1 + 256 * unLetter c2 + 4096 * unLetter c3 = 32268 ∨
           unLetter c0 + 16 * unLetter c1 + 256 * unLetter c2 + 4096 * unLetter c3 = 55423 then none
        else some (unLetter c0 + 16 * unLetter c1 + 256 * unLetter c2 + 4096 * unLetter c3)
      else none) := rfl

theorem indexOfWord_wordAt {i : Nat} (hi : i < 65536) : indexOfWord (wordAt i) = some i := by
  by_cases h1 : i = 25972
  · subst h1; decide
  by_cases h2 : i = 29811
  · subst h2; decide
  by_cases h3 : i = 97
  · subst h3; decide
  by_cases h4 : i = 32268
  · subst h4; decide
  by_cases h5 : i = 55423
  · subst h5; decide
  rw [wordAt_of_generic h1 h2 h3 h4 h5]
  unfold indexOfWord
  rw [if_neg (genWord_ne_handset i), if_neg (genWord_ne_interview i),
      if_neg (genWord_ne_abilene i), if_neg (genWord_ne_laughingly i),
      if_neg (genWord_ne_sterility i)]
  show parseGen ['w', wordLetter (i % 16), wordLetter (i / 16 % 16),
    wordLetter (i / 256 % 16), wordLetter (i / 4096 % 16)] = some i
  rw [parseGen_cons,
      unLetter_wordLetter _ (by omega), unLetter_wordLetter _ (by omega),
      unLetter_wordLetter _ (by omega), unLetter_wordLetter _ (by omega)]
  have hrec : i % 16 + 16 * (i / 16 % 16) + 256 * (i / 256 % 16) + 4096 * (i / 4096 % 16) = i := by
    omega
  rw [if_pos (by omega)]
  rw [hrec, if_neg (by omega)]

theorem wordAt_inj {i j : Nat} (hi : i < 65536) (hj : j < 65536) (h : wordAt i = wordAt j) :
    i = j := by
  have := indexOfWord_wordAt hi
  rw [h, indexOfWord_wordAt hj] at this
  exact (Option.some.injEq _ _ ▸ this).symm

theorem parseGen_lt {l : List Char} {i : Nat} (h : parseGen l = some i) : i < 65536 := by
  unfold parseGen at h
  split at h
  · split_ifs at h
    all_goals simp_all
    omega
  · simp at h

theorem indexOfWord_lt {s : String} {i : Nat} (h : indexOfWord s = some i) : i < 65536 := by
  unfold indexOfWord at h
  split_ifs at h <;>
    first
    | (simp_all; omega)
    | exact parseGen_lt h

/-! ## Chunk codec lemmas -/

theorem bytesToInt_lt (a b : Fin 256) : bytesToInt a b < 65536 := by
  have := a.isLt; have := b.isLt; unfold bytesToInt; omega

theorem toChunks_lt : ∀ (l : List (Fin 256)), ∀ c ∈ toChunks l, c < 65536
  | [] => by simp [toChunks]
  | [a] => by simp [toChunks]
  | a :: b :: rest => by
    intro c hc
    have hc' : c ∈ bytesToInt a b :: toChunks rest := hc
    rcases List.mem_cons.mp hc' with h | h
    · subst h; exact bytesToInt_lt a b
    · exact toChunks_lt rest c h

theorem byteLo_bytesToInt (a b : Fin 256) : byteLo (bytesToInt a b) = a := by
  apply Fin.ext
  show (a.val + 256 * b.val) % 256 = a.val
  have := a.isLt; omega

theorem byteHi_bytesToInt (a b : Fin 256) : byteHi (bytesToInt a b) = b := by
  apply Fin.ext
  show (a.val + 256 * b.val) / 256 % 256 = b.val
  have := a.isLt; have := b.isLt; omega

theorem bytesOfChunks_toChunks : ∀ (l : List (Fin 256)), l.length % 2 = 0 →
    bytesOfChunks (toChunks l) = l
  | [] => fun _ => rfl
  | [a] => fun h => by simp at h
  | a :: b :: rest => fun h => by
    have hr : rest.length % 2 = 0 := by simp [List.length_cons] at h; omega
    show intToBytes (bytesToInt a b) ++ bytesOfChunks (toChunks rest) = a :: b :: rest
    rw [bytesOfChunks_toChunks rest hr]
    show [byteLo (bytesToInt a b), byteHi (bytesToInt a b)] ++ rest = a :: b :: rest
    rw [byteLo_bytesToInt, byteHi_bytesToInt]
    rfl

theorem padIf_length_even (data : List (Fin 256)) : (padIf data).length % 2 = 0 := by
  unfold padIf
  split_ifs with h
  · simp; omega
  · omega

theorem padIf_ne_nil {data : List (Fin 256)} (h : data ≠ []) : padIf data ≠ [] := by
  unfold padIf
  split_ifs <;> simp [h]

/-! ## Word-lookup loop lemmas -/

theorem lookupWord_wordAt {i : Nat} (hi : i < 65536) : lookupWord (wordAt i) = Except.ok i := by
  unfold lookupWord
  rw [indexOfWord_wordAt hi]

theorem lookupWord_err : ∀ {w : String} {e : Err}, lookupWord w = Except.error e →
    e = Err.unknownWord := by
  intro w e h
  unfold lookupWord at h
  split at h <;> simp_all

theorem mapLookup_map_wordAt : ∀ (idxs : List Nat), (∀ i ∈ idxs, i < 65536) →
    mapLookup (idxs.map wordAt) = Except.ok idxs
  | [] => fun _ => rfl
  | i :: rest => fun h => by
    have h1 : lookupWord (wordAt i) = Except.ok i :=
      lookupWord_wordAt (h i (List.mem_cons_self i rest))
    have h2 := mapLookup_map_wordAt rest (fun j hj => h j (List.mem_cons_of_mem _ hj))
    show mapLookup (wordAt i :: List.map wordAt rest) = Except.ok (i :: rest)
    unfold mapLookup
    rw [h1, h2]

theorem mapLookup_unknown : ∀ (l : List String), (∃ w ∈ l, indexOfWord w = none) →
    mapLookup l = Except.error Err.unknownWord
  | [] => by simp
  | w :: rest => fun ⟨b, hb, hnone⟩ => by
    show (match lookupWord w with
      | Except.error e => Except.error e
      | Except.ok i =>
        match mapLookup rest with
        | Except.error e => Except.error e
        | Except.ok is => Except.ok (i :: is)) = Except.error Err.unknownWord
    cases hl : lookupWord w with
    | error e => rw [lookupWord_err hl]
    | ok i =>
      rcases List.mem_cons.mp hb with heq | hmem
      · subst heq
        unfold lookupWord at hl
        rw [hnone] at hl
        cases hl
      · rw [mapLookup_unknown rest ⟨b, hmem, hnone⟩]

/-! ## Marker-stripping lemmas -/

theorem map_pyLower_fixed : ∀ (l : List String), (∀ w ∈ l, pyLower w = w) → l.map pyLower = l := by
  intro l h
  induction l with
  | nil => rfl
  | cons a t ih =>
    simp only [List.map_cons]
    rw [h a (List.mem_cons_self a t), ih (fun w hw => h w (List.mem_cons_of_mem _ hw))]

theorem hasCSMarker_suffix (A : List String) (c1 c2 : String) (hne : A ≠ []) :
    hasCSMarker (A ++ ["check", c1, c2]) = true := by
  have hlp : 0 < A.length := List.length_pos.mpr hne
  have hlen : (A ++ ["check", c1, c2]).length = A.length + 3 := by simp
  unfold hasCSMarker
  rw [hlen]
  have h3 : A.length + 3 - 3 = A.length := by omega
  rw [h3, List.getD_eq_getElem?_getD, List.getElem?_append_right (Nat.le_refl _)]
  simp
  omega

theorem afterCSStrip_suffix (A : List String) (c1 c2 : String) (hne : A ≠ []) :
    afterCSStrip (A ++ ["check", c1, c2]) = A := by
  have hlen : (A ++ ["check", c1, c2]).length = A.length + 3 := by simp
  unfold afterCSStrip
  rw [hasCSMarker_suffix A c1 c2 hne, if_pos rfl, hlen]
  have h3 : A.length + 3 - 3 = A.length := by omega
  rw [h3]
  exact List.take_left A _

theorem recordedCS_suffix (A : List String) (c1 c2 : String) (hne : A ≠ []) :
    recordedCS (A ++ ["check", c1, c2]) = [c1, c2] := by
  have hlen : (A ++ ["check", c1, c2]).length = A.length + 3 := by simp
  unfold recordedCS
  rw [hasCSMarker_suffix A c1 c2 hne, if_pos rfl, hlen]
  have h2 : A.length + 3 - 2 = (A ++ ["check"]).length := by simp
  rw [h2, show A ++ ["check", c1, c2] = (A ++ ["check"]) ++ [c1, c2] by simp]
  exact List.drop_left _ _

theorem hasCSMarker_of_no_check (A : List String) (hnc : ∀ w ∈ A, w ≠ "check") :
    hasCSMarker A = false := by
  unfold hasCSMarker
  rcases Nat.lt_or_ge 3 A.length with h | h
  · have hlt : A.length - 3 < A.length := by omega
    have hmem : A.getD (A.length - 3) "" ∈ A := by
      rw [List.getD_eq_getElem?_getD, List.getElem?_eq_getElem hlt]
      exact List.getElem_mem hlt
    have hne' := hnc _ hmem
    rw [List.getD_eq_getElem?_getD] at hne'
    simp [hne']
  · simp
    omega

theorem afterCSStrip_of_no_check (A : List String) (hnc : ∀ w ∈ A, w ≠ "check") :
    afterCSStrip A = A := by
  unfold afterCSStrip
  rw [hasCSMarker_of_no_check A hnc]
  simp

theorem recordedCS_of_no_check (A : List String) (hnc : ∀ w ∈ A, w ≠ "check") :
    recordedCS A = [] := by
  unfold recordedCS
  rw [hasCSMarker_of_no_check A hnc]
  simp

theorem stripMarkers_cs (A : List String) (c1 c2 : String) (hne : A ≠ [])
    (hfix : ∀ w ∈ A ++ ["check", c1, c2], pyLower w = w) :
    stripMarkers (A ++ ["check", c1, c2]) =
      (match A.getLast? with
       | none => Except.error Err.indexError
       | some lw => if lw == "null" then Except.ok (A.dropLast, [c1, c2], true)
                    else Except.ok (A, [c1, c2], false)) := by
  unfold stripMarkers
  rw [map_pyLower_fixed _ hfix, afterCSStrip_suffix A c1 c2 hne, recordedCS_suffix A c1 c2 hne]

theorem stripMarkers_nocs (A : List String)
    (hfix : ∀ w ∈ A, pyLower w = w)
    (hnc : ∀ w ∈ A, w ≠ "check") :
    stripMarkers A =
      (match A.getLast? with
       | none => Except.error Err.indexError
       | some lw => if lw == "null" then Except.ok (A.dropLast, [], true)
                    else Except.ok (A, [], false)) := by
  unfold stripMarkers
  rw [map_pyLower_fixed _ hfix, afterCSStrip_of_no_check A hnc, recordedCS_of_no_check A hnc]

/-! ## CRC-32 bounds and checksum packing lemmas -/

theorem crcStep1_lt {c : Nat} (h : c < 2 ^ 32) : crcStep1 c < 2 ^ 32 := by
  unfold crcStep1
  split_ifs
  · exact Nat.xor_lt_two_pow (by omega) (by unfold crcPoly; omega)
  · omega

theorem crcStep8_lt {c : Nat} (h : c < 2 ^ 32) : crcStep8 c < 2 ^ 32 := by
  unfold crcStep8
  exact crcStep1_lt (crcStep1_lt (crcStep1_lt (crcStep1_lt
    (crcStep1_lt (crcStep1_lt (crcStep1_lt (crcStep1_lt h)))))))

theorem crcByte_lt {c : Nat} (b : Fin 256) (h : c < 2 ^ 32) : crcByte c b < 2 ^ 32 := by
  unfold crcByte
  exact crcStep8_lt (Nat.xor_lt_two_pow h (by have := b.isLt; omega))

theorem crcRaw_lt : ∀ (m : List (Fin 256)) {init : Nat}, init < 2 ^ 32 →
    crcRaw init m < 2 ^ 32
  | [] => fun h => h
  | b :: rest => fun h => crcRaw_lt rest (crcByte_lt b h)

theorem crc32u_lt (m : List (Fin 256)) : crc32u m < 2 ^ 32 := by
  unfold crc32u
  exact Nat.xor_lt_two_pow (crcRaw_lt m (by omega)) (by omega)

theorem toSigned32_toNat_mod {u : Nat} (h : u < 2 ^ 32) :
    ((toSigned32 u) % (2 ^ 32 : Int)).toNat = u := by
  unfold toSigned32
  split_ifs with h1 <;> omega

theorem toSigned32_inj {u v : Nat} (hu : u < 2 ^ 32) (hv : v < 2 ^ 32)
    (h : toSigned32 u = toSigned32 v) : u = v := by
  unfold toSigned32 at h
  split_ifs at h <;> omega

theorem packInt32_getD (v : Int) :
    (packInt32 v).getD 0 0 = ⟨(v % (2 ^ 32 : Int)).toNat % 256, by omega⟩ ∧
    (packInt32 v).getD 1 0 = ⟨(v % (2 ^ 32 : Int)).toNat / 256 % 256, by omega⟩ ∧
    (packInt32 v).getD 2 0 = ⟨(v % (2 ^ 32 : Int)).toNat / 65536 % 256, by omega⟩ ∧
    (packInt32 v).getD 3 0 = ⟨(v % (2 ^ 32 : Int)).toNat / 16777216 % 256, by omega⟩ := by
  unfold packInt32
  exact ⟨rfl, rfl, rfl, rfl⟩

theorem bytesToInt_pack_lo (u : Nat) :
    bytesToInt ⟨u % 256, by omega⟩ ⟨u / 256 % 256, by omega⟩ = u % 65536 := by
  show u % 256 + 256 * (u / 256 % 256) = u % 65536
  omega

theorem bytesToInt_pack_hi {u : Nat} (h : u < 2 ^ 32) :
    bytesToInt ⟨u / 65536 % 256, by omega⟩ ⟨u / 16777216 % 256, by omega⟩ = u / 65536 := by
  show u / 65536 % 256 + 256 * (u / 16777216 % 256) = u / 65536
  omega

/-- `encode`'s checksum branch: the two words after the marker are the
little-endian halves of the CRC-32 of the (unpadded) input, low half first. -/
theorem encodeWords_cs (data : List (Fin 256)) :
    encodeWords data true =
      encodeWords data false ++
        ["check", wordAt (crc32u data % 65536), wordAt (crc32u data / 65536)] := by
  have hu : ((crc32s data) % (2 ^ 32 : Int)).toNat = crc32u data :=
    toSigned32_toNat_mod (crc32u_lt data)
  have hX : ((crc32s data) % (2 ^ 32 : Int)).toNat < 2 ^ 32 := by omega
  obtain ⟨g0, g1, g2, g3⟩ := packInt32_getD (crc32s data)
  have e1 : bytesToInt ((packInt32 (crc32s data)).getD 0 0) ((packInt32 (crc32s data)).getD 1 0)
      = crc32u data % 65536 := by
    rw [g0, g1, bytesToInt_pack_lo, hu]
  have e2 : bytesToInt ((packInt32 (crc32s data)).getD 2 0) ((packInt32 (crc32s data)).getD 3 0)
      = crc32u data / 65536 := by
    rw [g2, g3, bytesToInt_pack_hi hX, hu]
  unfold encodeWords
  simp only [eq_self_iff_true, ite_true, Bool.false_eq_true, ite_false]
  rw [e1, e2]

/-! ## Decoder evaluation lemmas -/

theorem pyLower_marker_null : pyLower "null" = "null" := by decide

theorem pyLower_marker_check : pyLower "check" = "check" := by decide

theorem unpackInt32_chunks {l1 l2 : Nat} (h1 : l1 < 65536) (h2 : l2 < 65536) :
    unpackInt32 (intToBytes l1 ++ intToBytes l2) = toSigned32 (l1 + 65536 * l2) := by
  show toSigned32 (l1 % 256 + 256 * (l1 / 256 % 256) + 65536 * (l2 % 256)
    + 16777216 * (l2 / 256 % 256)) = toSigned32 (l1 + 65536 * l2)
  congr 1
  omega

theorem decodeWords_of_strip {input : List String} {ws3 cws : List String} {isPad : Bool}
    (hs : stripMarkers input = Except.ok (ws3, cws, isPad)) :
    decodeWords input = decodeTail ws3 cws isPad := by
  unfold decodeWords
  simp only [hs]

theorem checksumCheck_nil (out : List (Fin 256)) : checksumCheck [] out = Except.ok out := rfl

theorem checksumCheck_pair_eq (w1 w2 : String) (out : List (Fin 256)) :
    checksumCheck [w1, w2] out =
      (match lookupWord w1 with
       | Except.error e => Except.error e
       | Except.ok i1 =>
         match lookupWord w2 with
         | Except.error e => Except.error e
         | Except.ok i2 =>
           if unpackInt32 (intToBytes i1 ++ intToBytes i2) ≠ crc32s out
           then Except.error Err.checksumMismatch
           else Except.ok out) := rfl

theorem checksumCheck_pair {l1 l2 : Nat} (h1 : l1 < 65536) (h2 : l2 < 65536)
    (out : List (Fin 256)) :
    checksumCheck [wordAt l1, wordAt l2] out =
      (if toSigned32 (l1 + 65536 * l2) ≠ crc32s out
       then Except.error Err.checksumMismatch else Except.ok out) := by
  show (match lookupWord (wordAt l1) with
    | Except.error e => Except.error e
    | Except.ok i1 =>
      match lookupWord (wordAt l2) with
      | Except.error e => Except.error e
      | Except.ok i2 =>
        if unpackInt32 (intToBytes i1 ++ intToBytes i2) ≠ crc32s out
        then Except.error Err.checksumMismatch
        else Except.ok out) = _
  rw [lookupWord_wordAt h1, lookupWord_wordAt h2]
  show (if unpackInt32 (intToBytes l1 ++ intToBytes l2) ≠ crc32s out
    then Except.error Err.checksumMismatch else Except.ok out) = _
  rw [unpackInt32_chunks h1 h2]

theorem decodeTail_eval (idxs : List Nat) (cws : List String) (isPad : Bool)
    (hb : ∀ i ∈ idxs, i < 65536) :
    decodeTail (idxs.map wordAt) cws isPad =
      checksumCheck cws (if isPad then (bytesOfChunks idxs).dropLast else bytesOfChunks idxs) := by
  unfold decodeTail
  rw [mapLookup_map_wordAt idxs hb]

/-- Every word of a mapped index list is lowercase and is not a marker. -/
theorem mem_map_wordAt_facts {idxs : List Nat} {w : String} (h : w ∈ idxs.map wordAt) :
    pyLower w = w ∧ w ≠ "check" ∧ w ≠ "null" := by
  obtain ⟨i, _, rfl⟩ := List.mem_map.mp h
  exact ⟨pyLower_wordAt i, wordAt_ne_marker_check i, wordAt_ne_marker_null i⟩

/-- Marker stripping on a data-word body, with or without the trailing
padding marker. -/
theorem stripMarkers_body (idxs : List Nat) (pad : Bool)
    (hne : pad = false → idxs ≠ []) :
    stripMarkers (if pad then idxs.map wordAt ++ ["null"] else idxs.map wordAt) =
      Except.ok (idxs.map wordAt, [], pad) := by
  cases pad with
  | true =>
    rw [if_pos rfl]
    have hfix : ∀ w ∈ idxs.map wordAt ++ ["null"], pyLower w = w := by
      intro w hw
      rcases List.mem_append.mp hw with h | h
      · exact (mem_map_wordAt_facts h).1
      · simp at h; subst h; exact pyLower_marker_null
    have hnc : ∀ w ∈ idxs.map wordAt ++ ["null"], w ≠ "check" := by
      intro w hw
      rcases List.mem_append.mp hw with h | h
      · exact (mem_map_wordAt_facts h).2.1
      · simp at h; subst h; decide
    have hs := stripMarkers_nocs (idxs.map wordAt ++ ["null"]) hfix hnc
    rw [List.getLast?_concat, List.dropLast_concat] at hs
    simpa using hs
  | false =>
    rw [if_neg (by simp)]
    have hne' := hne rfl
    have hfix : ∀ w ∈ idxs.map wordAt, pyLower w = w := fun w hw => (mem_map_wordAt_facts hw).1
    have hnc : ∀ w ∈ idxs.map wordAt, w ≠ "check" := fun w hw => (mem_map_wordAt_facts hw).2.1
    have hs := stripMarkers_nocs (idxs.map wordAt) hfix hnc
    cases hlast : (idxs.map wordAt).getLast? with
    | none =>
      rw [List.getLast?_eq_none_iff] at hlast
      exact absurd (by simpa using hlast) hne'
    | some lw =>
      have hlw : lw ≠ "null" := (mem_map_wordAt_facts (List.mem_of_getLast?_eq_some hlast)).2.2
      rw [hlast] at hs
      simpa [hlw] using hs

/-- Marker stripping on a data-word body followed by a checksum suffix. -/
theorem stripMarkers_body_cs (idxs : List Nat) (pad : Bool) (l1 l2 : Nat)
    (hne : pad = false → idxs ≠ []) :
    stripMarkers ((if pad then idxs.map wordAt ++ ["null"] else idxs.map wordAt)
        ++ ["check", wordAt l1, wordAt l2]) =
      Except.ok (idxs.map wordAt, [wordAt l1, wordAt l2], pad) := by
  have hfixA : ∀ w ∈ (if pad then idxs.map wordAt ++ ["null"] else idxs.map wordAt),
      pyLower w = w := by
    intro w hw
    cases pad with
    | true =>
      rw [if_pos rfl] at hw
      rcases List.mem_append.mp hw with h | h
      · exact (mem_map_wordAt_facts h).1
      · simp at h; subst h; exact pyLower_marker_null
    | false =>
      rw [if_neg (by simp)] at hw
      exact (mem_map_wordAt_facts hw).1
  have hfix : ∀ w ∈ (if pad then idxs.map wordAt ++ ["null"] else idxs.map wordAt)
      ++ ["check", wordAt l1, wordAt l2], pyLower w = w := by
    intro w hw
    rcases List.mem_append.mp hw with h | h
    · exact hfixA w h
    · simp at h
      rcases h with h | h | h
      · subst h; exact pyLower_marker_check
      · subst h; exact pyLower_wordAt l1
      · subst h; exact pyLower_wordAt l2
  have hAne : (if pad then idxs.map wordAt ++ ["null"] else idxs.map wordAt) ≠ [] := by
    cases pad with
    | true => simp
    | false => simpa using hne rfl
  have hs := stripMarkers_cs _ (wordAt l1) (wordAt l2) hAne hfix
  cases pad with
  | true =>
    rw [if_pos rfl] at hs ⊢
    rw [List.getLast?_concat, List.dropLast_concat] at hs
    simpa using hs
  | false =>
    rw [if_neg (by simp)] at hs ⊢
    cases hlast : (idxs.map wordAt).getLast? with
    | none =>
      rw [List.getLast?_eq_none_iff] at hlast
      exact absurd (by simpa using hlast) (hne rfl)
    | some lw =>
      have hlw : lw ≠ "null" := (mem_map_wordAt_facts (List.mem_of_getLast?_eq_some hlast)).2.2
      rw [hlast] at hs
      simpa [hlw] using hs

/-- Decoding a plain body of data words (no checksum suffix). -/
theorem decode_nocs_core (idxs : List Nat) (pad : Bool)
    (hb : ∀ i ∈ idxs, i < 65536) (hne : pad = false → idxs ≠ []) :
    decodeWords (if pad then idxs.map wordAt ++ ["null"] else idxs.map wordAt) =
      Except.ok (if pad then (bytesOfChunks idxs).dropLast else bytesOfChunks idxs) := by
  rw [decodeWords_of_strip (stripMarkers_body idxs pad hne)]
  rw [decodeTail_eval idxs [] pad hb, checksumCheck_nil]

/-- Decoding a body of data words followed by a checksum suffix: the result
is the checksum comparison on the decoded buffer. -/
theorem decode_cs_core (idxs : List Nat) (pad : Bool) (l1 l2 : Nat)
    (hb : ∀ i ∈ idxs, i < 65536) (hne : pad = false → idxs ≠ [])
    (h1 : l1 < 65536) (h2 : l2 < 65536) :
    decodeWords ((if pad then idxs.map wordAt ++ ["null"] else idxs.map wordAt)
        ++ ["check", wordAt l1, wordAt l2]) =
      (if toSigned32 (l1 + 65536 * l2)
          ≠ crc32s (if pad then (bytesOfChunks idxs).dropLast else bytesOfChunks idxs)
       then Except.error Err.checksumMismatch
       else Except.ok (if pad then (bytesOfChunks idxs).dropLast else bytesOfChunks idxs)) := by
  rw [decodeWords_of_strip (stripMarkers_body_cs idxs pad l1 l2 hne)]
  rw [decodeTail_eval idxs [wordAt l1, wordAt l2] pad hb]
  rw [checksumCheck_pair h1 h2]

/-! ## CRC-32 algebra: xor-linearity of the step function, injectivity,
and the burst-error property for one- and two-byte differences -/

theorem xor_div_two (a b : Nat) : (a ^^^ b) / 2 = a / 2 ^^^ b / 2 := by
  apply Nat.eq_of_testBit_eq
  intro i
  simp [Nat.testBit_xor, ← Nat.testBit_add_one]

theorem mod_two_xor (a b : Nat) : (a ^^^ b) % 2 = (a % 2 + b % 2) % 2 := by
  have hx : ((a ^^^ b) % 2 = 1) ↔ ¬((a % 2 = 1) ↔ (b % 2 = 1)) := Nat.xor_mod_two_eq_one
  rcases Nat.mod_two_eq_zero_or_one a with ha | ha <;>
    rcases Nat.mod_two_eq_zero_or_one b with hb | hb
  · have h0 : ¬((a ^^^ b) % 2 = 1) := by rw [hx]; simp [ha, hb]
    omega
  · have h1 : (a ^^^ b) % 2 = 1 := by rw [hx]; simp [ha, hb]
    omega
  · have h1 : (a ^^^ b) % 2 = 1 := by rw [hx]; simp [ha, hb]
    omega
  · have h0 : ¬((a ^^^ b) % 2 = 1) := by rw [hx]; simp [ha, hb]
    omega

theorem xor_xor_cancel (x y p : Nat) : (x ^^^ p) ^^^ (y ^^^ p) = x ^^^ y := by
  apply Nat.eq_of_testBit_eq
  intro i
  simp [Nat.testBit_xor]
  cases x.testBit i <;> cases y.testBit i <;> cases p.testBit i <;> rfl

theorem xor_xor_cancel_left (p x y : Nat) : (p ^^^ x) ^^^ (p ^^^ y) = x ^^^ y := by
  apply Nat.eq_of_testBit_eq
  intro i
  simp [Nat.testBit_xor]
  cases p.testBit i <;> cases x.testBit i <;> cases y.testBit i <;> rfl

theorem xor_mix (p q r s : Nat) : (p ^^^ q) ^^^ (r ^^^ s) = (p ^^^ r) ^^^ (q ^^^ s) := by
  apply Nat.eq_of_testBit_eq
  intro i
  simp [Nat.testBit_xor]
  cases p.testBit i <;> cases q.testBit i <;> cases r.testBit i <;> cases s.testBit i <;> rfl

theorem crcStep1_xor (a b : Nat) : crcStep1 (a ^^^ b) = crcStep1 a ^^^ crcStep1 b := by
  have hpar := mod_two_xor a b
  have hdiv := xor_div_two a b
  unfold crcStep1
  rcases Nat.mod_two_eq_zero_or_one a with ha | ha <;>
    rcases Nat.mod_two_eq_zero_or_one b with hb | hb
  · rw [if_neg (by omega), if_neg (by omega), if_neg (by omega), hdiv]
  · rw [if_pos (by omega), if_neg (by omega), if_pos hb, hdiv]
    rw [Nat.xor_assoc]
  · rw [if_pos (by omega), if_pos ha, if_neg (by omega), hdiv]
    rw [Nat.xor_assoc, Nat.xor_comm (b / 2) crcPoly, ← Nat.xor_assoc]
  · rw [if_neg (by omega), if_pos ha, if_pos hb, hdiv]
    rw [xor_xor_cancel]

theorem crcStep8_xor (a b : Nat) : crcStep8 (a ^^^ b) = crcStep8 a ^^^ crcStep8 b := by
  unfold crcStep8
  simp only [crcStep1_xor]

theorem crcStep1_inj {a b : Nat} (ha : a < 2 ^ 32) (hb : b < 2 ^ 32)
    (h : crcStep1 a = crcStep1 b) : a = b := by
  have ha2 : a / 2 < 2 ^ 31 := by omega
  have hb2 : b / 2 < 2 ^ 31 := by omega
  unfold crcStep1 at h
  rcases Nat.mod_two_eq_zero_or_one a with hpa | hpa <;>
    rcases Nat.mod_two_eq_zero_or_one b with hpb | hpb
  · rw [if_neg (by omega), if_neg (by omega)] at h
    omega
  · rw [if_neg (by omega), if_pos hpb] at h
    have hcontra := congrArg (fun x => Nat.testBit x 31) h
    simp only [Nat.testBit_xor, Nat.testBit_lt_two_pow ha2, Nat.testBit_lt_two_pow hb2]
      at hcontra
    exact absurd hcontra (by decide)
  · rw [if_pos hpa, if_neg (by omega)] at h
    have hcontra := congrArg (fun x => Nat.testBit x 31) h
    simp only [Nat.testBit_xor, Nat.testBit_lt_two_pow ha2, Nat.testBit_lt_two_pow hb2]
      at hcontra
    exact absurd hcontra (by decide)
  · rw [if_pos hpa, if_pos hpb] at h
    have := Nat.xor_left_inj.mp h
    omega

theorem crcStep8_inj {a b : Nat} (ha : a < 2 ^ 32) (hb : b < 2 ^ 32)
    (h : crcStep8 a = crcStep8 b) : a = b := by
  unfold crcStep8 at h
  have l7a := crcStep1_lt (crcStep1_lt (crcStep1_lt (crcStep1_lt (crcStep1_lt
    (crcStep1_lt (crcStep1_lt ha))))))
  have l7b := crcStep1_lt (crcStep1_lt (crcStep1_lt (crcStep1_lt (crcStep1_lt
    (crcStep1_lt (crcStep1_lt hb))))))
  have h7 := crcStep1_inj l7a l7b h
  have l6a := crcStep1_lt (crcStep1_lt (crcStep1_lt (crcStep1_lt (crcStep1_lt
    (crcStep1_lt ha)))))
  have l6b := crcStep1_lt (crcStep1_lt (crcStep1_lt (crcStep1_lt (crcStep1_lt
    (crcStep1_lt hb)))))
  have h6 := crcStep1_inj l6a l6b h7
  have h5 := crcStep1_inj (crcStep1_lt (crcStep1_lt (crcStep1_lt (crcStep1_lt
    (crcStep1_lt ha))))) (crcStep1_lt (crcStep1_lt (crcStep1_lt (crcStep1_lt
    (crcStep1_lt hb))))) h6
  have h4 := crcStep1_inj (crcStep1_lt (crcStep1_lt (crcStep1_lt (crcStep1_lt ha))))
    (crcStep1_lt (crcStep1_lt (crcStep1_lt (crcStep1_lt hb)))) h5
  have h3 := crcStep1_inj (crcStep1_lt (crcStep1_lt (crcStep1_lt ha)))
    (crcStep1_lt (crcStep1_lt (crcStep1_lt hb))) h4
  have h2 := crcStep1_inj (crcStep1_lt (crcStep1_lt ha)) (crcStep1_lt (crcStep1_lt hb)) h3
  have h1 := crcStep1_inj (crcStep1_lt ha) (crcStep1_lt hb) h2
  exact crcStep1_inj ha hb h1

set_option maxHeartbeats 1000000 in
set_option maxRecDepth 10000 in
/-- A nonzero byte fed into the zero CRC state spreads into the high bits:
the result never fits in a byte again.  Checked exhaustively. -/
theorem crcStep8_big : ∀ d : Nat, d < 256 → d ≠ 0 → ¬ crcStep8 d < 256 := by decide

theorem crcStep8_eq_zero {c : Nat} (hc : c < 2 ^ 32) (h : crcStep8 c = 0) : c = 0 :=
  crcStep8_inj hc (by omega) (by rw [h]; rfl)

theorem crcStep8_ne_zero {d : Nat} (hd : d < 256) (hne : d ≠ 0) : crcStep8 d ≠ 0 :=
  fun h0 => hne (crcStep8_eq_zero (by omega) h0)

/-- A two-byte error pattern fed into the zero CRC state never cancels. -/
theorem crc_delta2_ne_zero {d1 d2 : Nat} (h1 : d1 < 256) (h2 : d2 < 256)
    (hne : ¬(d1 = 0 ∧ d2 = 0)) : crcStep8 (crcStep8 d1 ^^^ d2) ≠ 0 := by
  intro h0
  have hb : crcStep8 d1 ^^^ d2 < 2 ^ 32 :=
    Nat.xor_lt_two_pow (crcStep8_lt (by omega)) (by omega)
  have hz : crcStep8 d1 ^^^ d2 = 0 := crcStep8_eq_zero hb h0
  have heq : crcStep8 d1 = d2 := Nat.xor_eq_zero.mp hz
  rcases Nat.eq_zero_or_pos d1 with hd1 | hd1
  · subst hd1
    refine hne ⟨rfl, ?_⟩
    rw [← heq]
    rfl
  · have hbig := crcStep8_big d1 h1 (by omega)
    rw [heq] at hbig
    exact hbig h2

theorem crcRaw_cons (init : Nat) (b : Fin 256) (l : List (Fin 256)) :
    crcRaw init (b :: l) = crcRaw (crcByte init b) l := rfl

theorem crcRaw_append (init : Nat) (l1 l2 : List (Fin 256)) :
    crcRaw init (l1 ++ l2) = crcRaw (crcRaw init l1) l2 := by
  unfold crcRaw
  exact List.foldl_append _ _ _ _

/-- Fixed suffix: the raw CRC state map is injective on 32-bit states. -/
theorem crcRaw_inj_init : ∀ (l : List (Fin 256)) {s s' : Nat}, s < 2 ^ 32 → s' < 2 ^ 32 →
    crcRaw s l = crcRaw s' l → s = s'
  | [], s, s', _, _, h => h
  | b :: rest, s, s', hs, hs', h => by
    have hrec := crcRaw_inj_init rest (crcByte_lt b hs) (crcByte_lt b hs') h
    unfold crcByte at hrec
    have hxb : s ^^^ b.val < 2 ^ 32 := Nat.xor_lt_two_pow hs (by have := b.isLt; omega)
    have hxb' : s' ^^^ b.val < 2 ^ 32 := Nat.xor_lt_two_pow hs' (by have := b.isLt; omega)
    have := crcStep8_inj hxb hxb' hrec
    exact Nat.xor_left_inj.mp this

/-- CRC-32 detects any change confined to two adjacent bytes. -/
theorem crc_burst2 (pre suf : List (Fin 256)) (x1 x2 y1 y2 : Fin 256)
    (hne : ¬(x1 = y1 ∧ x2 = y2)) :
    crc32u (pre ++ [x1, x2] ++ suf) ≠ crc32u (pre ++ [y1, y2] ++ suf) := by
  intro h
  unfold crc32u at h
  have h' := Nat.xor_left_inj.mp h
  rw [crcRaw_append, crcRaw_append, crcRaw_append, crcRaw_append] at h'
  have hAlt : crcRaw 0xFFFFFFFF pre < 2 ^ 32 := crcRaw_lt pre (by omega)
  have hsx : crcRaw (crcRaw 0xFFFFFFFF pre) [x1, x2] < 2 ^ 32 := crcRaw_lt _ hAlt
  have hsy : crcRaw (crcRaw 0xFFFFFFFF pre) [y1, y2] < 2 ^ 32 := crcRaw_lt _ hAlt
  have heq := crcRaw_inj_init suf hsx hsy h'
  have hxor : crcByte (crcByte (crcRaw 0xFFFFFFFF pre) x1) x2
      ^^^ crcByte (crcByte (crcRaw 0xFFFFFFFF pre) y1) y2 = 0 := by
    have heq' : crcByte (crcByte (crcRaw 0xFFFFFFFF pre) x1) x2
        = crcByte (crcByte (crcRaw 0xFFFFFFFF pre) y1) y2 := heq
    rw [heq', Nat.xor_self]
  have hlin : crcByte (crcByte (crcRaw 0xFFFFFFFF pre) x1) x2
      ^^^ crcByte (crcByte (crcRaw 0xFFFFFFFF pre) y1) y2
      = crcStep8 (crcStep8 (x1.val ^^^ y1.val) ^^^ (x2.val ^^^ y2.val)) := by
    unfold crcByte
    rw [← crcStep8_xor]
    congr 1
    rw [xor_mix, ← crcStep8_xor, xor_xor_cancel_left]
  rw [hlin] at hxor
  have hd1 : x1.val ^^^ y1.val < 256 := by
    have h8 : x1.val ^^^ y1.val < 2 ^ 8 :=
      Nat.xor_lt_two_pow (show x1.val < 2 ^ 8 from x1.isLt) (show y1.val < 2 ^ 8 from y1.isLt)
    omega
  have hd2 : x2.val ^^^ y2.val < 256 := by
    have h8 : x2.val ^^^ y2.val < 2 ^ 8 :=
      Nat.xor_lt_two_pow (show x2.val < 2 ^ 8 from x2.isLt) (show y2.val < 2 ^ 8 from y2.isLt)
    omega
  have hdne : ¬(x1.val ^^^ y1.val = 0 ∧ x2.val ^^^ y2.val = 0) := by
    rintro ⟨hz1, hz2⟩
    exact hne ⟨Fin.ext (Nat.xor_eq_zero.mp hz1), Fin.ext (Nat.xor_eq_zero.mp hz2)⟩
  exact crc_delta2_ne_zero hd1 hd2 hdne hxor

/-- CRC-32 detects any change confined to the final byte. -/
theorem crc_burst1 (pre : List (Fin 256)) (x y : Fin 256) (hne : x ≠ y) :
    crc32u (pre ++ [x]) ≠ crc32u (pre ++ [y]) := by
  intro h
  unfold crc32u at h
  have h' := Nat.xor_left_inj.mp h
  rw [crcRaw_append, crcRaw_append] at h'
  have hAlt : crcRaw 0xFFFFFFFF pre < 2 ^ 32 := crcRaw_lt pre (by omega)
  have heq : crcByte (crcRaw 0xFFFFFFFF pre) x = crcByte (crcRaw 0xFFFFFFFF pre) y := h'
  unfold crcByte at heq
  have hxb : crcRaw 0xFFFFFFFF pre ^^^ x.val < 2 ^ 32 :=
    Nat.xor_lt_two_pow hAlt (by have := x.isLt; omega)
  have hyb : crcRaw 0xFFFFFFFF pre ^^^ y.val < 2 ^ 32 :=
    Nat.xor_lt_two_pow hAlt (by have := y.isLt; omega)
  have := crcStep8_inj hxb hyb heq
  exact hne (Fin.ext (Nat.xor_right_inj.mp this))

/-! ## Encoder evaluation lemmas -/

theorem encodeWords_false_even {data : List (Fin 256)} (h : data.length % 2 = 0) :
    encodeWords data false = (toChunks data).map wordAt := by
  have h1 : ¬(data.length % 2 = 1) := by omega
  simp [encodeWords, padIf, h1]

theorem encodeWords_false_odd {data : List (Fin 256)} (h : data.length % 2 = 1) :
    encodeWords data false = (toChunks (data ++ [0])).map wordAt ++ ["null"] := by
  simp [encodeWords, padIf, h]

theorem toChunks_ne_nil : ∀ {l : List (Fin 256)}, l ≠ [] → l.length % 2 = 0 →
    toChunks l ≠ []
  | [], h, _ => absurd rfl h
  | [a], _, h2 => by simp at h2
  | a :: b :: rest, _, _ => by
    show bytesToInt a b :: toChunks rest ≠ []
    simp

/-- The round trip at the level of chunk values plus markers, no checksum. -/
theorem roundtrip_nocs (data : List (Fin 256)) (hne : data ≠ []) :
    decodeWords (encodeWords data false) = Except.ok data := by
  rcases Nat.mod_two_eq_zero_or_one data.length with h | h
  · rw [encodeWords_false_even h]
    have hc := decode_nocs_core (toChunks data) false (toChunks_lt data)
      (fun _ => toChunks_ne_nil hne h)
    simp only [Bool.false_eq_true, ite_false] at hc
    rw [hc, bytesOfChunks_toChunks data h]
  · rw [encodeWords_false_odd h]
    have hlen : (data ++ [0]).length % 2 = 0 := by simp; omega
    have hc := decode_nocs_core (toChunks (data ++ [0])) true (toChunks_lt _) (by simp)
    simp only [eq_self_iff_true, ite_true] at hc
    rw [hc, bytesOfChunks_toChunks _ hlen, List.dropLast_concat]

/-- The round trip with a checksum suffix. -/
theorem roundtrip_cs (data : List (Fin 256)) (hne : data ≠ []) :
    decodeWords (encodeWords data true) = Except.ok data := by
  have hlt := crc32u_lt data
  have hl1 : crc32u data % 65536 < 65536 := by omega
  have hl2 : crc32u data / 65536 < 65536 := by omega
  have hsum : crc32u data % 65536 + 65536 * (crc32u data / 65536) = crc32u data := by omega
  rw [encodeWords_cs data]
  rcases Nat.mod_two_eq_zero_or_one data.length with h | h
  · rw [encodeWords_false_even h]
    have hc := decode_cs_core (toChunks data) false (crc32u data % 65536) (crc32u data / 65536)
      (toChunks_lt data) (fun _ => toChunks_ne_nil hne h) hl1 hl2
    simp only [Bool.false_eq_true, ite_false] at hc
    rw [bytesOfChunks_toChunks data h, hsum] at hc
    rw [hc, if_neg (by simp [crc32s])]
  · rw [encodeWords_false_odd h]
    have hlen : (data ++ [0]).length % 2 = 0 := by simp; omega
    have hc := decode_cs_core (toChunks (data ++ [0])) true (crc32u data % 65536)
      (crc32u data / 65536) (toChunks_lt _) (by simp) hl1 hl2
    simp only [eq_self_iff_true, ite_true] at hc
    rw [bytesOfChunks_toChunks _ hlen, List.dropLast_concat, hsum] at hc
    rw [hc, if_neg (by simp [crc32s])]

/-! ## Mutation lemmas: the effect of replacing one chunk on the buffer
and on its CRC -/

theorem bytesOfChunks_append : ∀ (l1 l2 : List Nat),
    bytesOfChunks (l1 ++ l2) = bytesOfChunks l1 ++ bytesOfChunks l2
  | [], _ => rfl
  | i :: rest, l2 => by
    show intToBytes i ++ bytesOfChunks (rest ++ l2)
      = (intToBytes i ++ bytesOfChunks rest) ++ bytesOfChunks l2
    rw [bytesOfChunks_append rest l2, List.append_assoc]

theorem bytesOfChunks_length : ∀ (l : List Nat), (bytesOfChunks l).length = 2 * l.length
  | [] => rfl
  | i :: rest => by
    show (intToBytes i ++ bytesOfChunks rest).length = 2 * (rest.length + 1)
    rw [List.length_append, bytesOfChunks_length rest]
    show 2 + 2 * rest.length = 2 * (rest.length + 1)
    omega

theorem getD_zero_mem {l : List Nat} {t : Nat} (ht : t < l.length) : l.getD t 0 ∈ l := by
  rw [List.getD_eq_getElem?_getD, List.getElem?_eq_getElem ht]
  exact List.getElem_mem ht

theorem getD_map_wordAt {idxs : List Nat} {t : Nat} (ht : t < idxs.length) :
    (idxs.map wordAt).getD t "" = wordAt (idxs.getD t 0) := by
  rw [List.getD_eq_getElem?_getD, List.getD_eq_getElem?_getD, List.getElem?_map,
      List.getElem?_eq_getElem ht]
  rfl

theorem list_self_decomp {α : Type} (l : List α) (t : Nat) (d : α) (ht : t < l.length) :
    l = l.take t ++ l.getD t d :: l.drop (t + 1) := by
  conv_lhs => rw [← List.take_append_drop t l]
  congr 1
  rw [List.drop_eq_getElem_cons ht]
  congr 1
  rw [List.getD_eq_getElem?_getD, List.getElem?_eq_getElem ht]
  rfl

theorem bytesOfChunks_cons (i : Nat) (rest : List Nat) :
    bytesOfChunks (i :: rest) = [byteLo i, byteHi i] ++ bytesOfChunks rest := rfl

theorem bytesOfChunks_set_decomp (idxs : List Nat) (t j : Nat) (ht : t < idxs.length) :
    bytesOfChunks (idxs.set t j) =
      (bytesOfChunks (idxs.take t) ++ [byteLo j, byteHi j]) ++ bytesOfChunks (idxs.drop (t + 1)) := by
  rw [List.set_eq_take_cons_drop j ht, bytesOfChunks_append, bytesOfChunks_cons,
      ← List.append_assoc]

theorem bytesOfChunks_self_decomp (idxs : List Nat) (t : Nat) (ht : t < idxs.length) :
    bytesOfChunks idxs =
      (bytesOfChunks (idxs.take t) ++ [byteLo (idxs.getD t 0), byteHi (idxs.getD t 0)])
        ++ bytesOfChunks (idxs.drop (t + 1)) := by
  conv_lhs => rw [list_self_decomp idxs t 0 ht]
  rw [bytesOfChunks_append, bytesOfChunks_cons, ← List.append_assoc]

theorem byte_pair_ne {j c : Nat} (hj : j < 65536) (hc : c < 65536) (hjc : j ≠ c) :
    ¬(byteLo j = byteLo c ∧ byteHi j = byteHi c) := by
  rintro ⟨hlo, hhi⟩
  have h1 := congrArg Fin.val hlo
  have h2 := congrArg Fin.val hhi
  simp only [byteLo, byteHi] at h1 h2
  omega

/-- Replacing one chunk by a different value changes the CRC of the whole
buffer. -/
theorem crc_set_chunk_ne (idxs : List Nat) (t j : Nat) (ht : t < idxs.length)
    (hj : j < 65536) (hb : ∀ i ∈ idxs, i < 65536) (hjc : j ≠ idxs.getD t 0) :
    crc32u (bytesOfChunks (idxs.set t j)) ≠ crc32u (bytesOfChunks idxs) := by
  rw [bytesOfChunks_set_decomp idxs t j ht, bytesOfChunks_self_decomp idxs t ht]
  apply crc_burst2
  exact byte_pair_ne hj (hb _ (getD_zero_mem ht)) hjc

/-- Replacing a non-final chunk by a different value changes the CRC of the
buffer with its final byte dropped. -/
theorem crc_set_mid_dropLast_ne (idxs : List Nat) (t j : Nat) (ht1 : t + 1 < idxs.length)
    (hj : j < 65536) (hb : ∀ i ∈ idxs, i < 65536) (hjc : j ≠ idxs.getD t 0) :
    crc32u ((bytesOfChunks (idxs.set t j)).dropLast)
      ≠ crc32u ((bytesOfChunks idxs).dropLast) := by
  have ht : t < idxs.length := by omega
  have hsuf : bytesOfChunks (idxs.drop (t + 1)) ≠ [] := by
    intro hnil
    have hlen := bytesOfChunks_length (idxs.drop (t + 1))
    rw [hnil, List.length_drop] at hlen
    simp at hlen
    omega
  rw [bytesOfChunks_set_decomp idxs t j ht, bytesOfChunks_self_decomp idxs t ht]
  rw [List.dropLast_append_of_ne_nil _ hsuf, List.dropLast_append_of_ne_nil _ hsuf]
  apply crc_burst2
  exact byte_pair_ne hj (hb _ (getD_zero_mem ht)) hjc

/-- Replacing the final chunk with a different low byte changes the CRC of
the buffer with its final byte dropped. -/
theorem crc_set_last_dropLast_ne (idxs : List Nat) (t j : Nat) (ht1 : t + 1 = idxs.length)
    (hlo : j % 256 ≠ idxs.getD t 0 % 256) :
    crc32u ((bytesOfChunks (idxs.set t j)).dropLast)
      ≠ crc32u ((bytesOfChunks idxs).dropLast) := by
  have ht : t < idxs.length := by omega
  have hdropnil : idxs.drop (t + 1) = [] := by
    rw [ht1]
    exact List.drop_length idxs
  rw [bytesOfChunks_set_decomp idxs t j ht, bytesOfChunks_self_decomp idxs t ht,
      hdropnil]
  show crc32u (((bytesOfChunks (idxs.take t) ++ [byteLo j, byteHi j]) ++ []).dropLast)
    ≠ crc32u (((bytesOfChunks (idxs.take t)
        ++ [byteLo (idxs.getD t 0), byteHi (idxs.getD t 0)]) ++ []).dropLast)
  rw [List.append_nil, List.append_nil]
  rw [show bytesOfChunks (idxs.take t) ++ [byteLo j, byteHi j]
      = (bytesOfChunks (idxs.take t) ++ [byteLo j]) ++ [byteHi j] by simp]
  rw [show bytesOfChunks (idxs.take t) ++ [byteLo (idxs.getD t 0), byteHi (idxs.getD t 0)]
      = (bytesOfChunks (idxs.take t) ++ [byteLo (idxs.getD t 0)])
          ++ [byteHi (idxs.getD t 0)] by simp]
  rw [List.dropLast_concat, List.dropLast_concat]
  apply crc_burst1
  intro hf
  exact hlo (congrArg Fin.val hf)

/-- Replacing the final chunk while keeping its low byte leaves the
final-byte-dropped buffer unchanged. -/
theorem bytes_set_last_dropLast_eq (idxs : List Nat) (t j : Nat) (ht1 : t + 1 = idxs.length)
    (hlo : j % 256 = idxs.getD t 0 % 256) :
    (bytesOfChunks (idxs.set t j)).dropLast = (bytesOfChunks idxs).dropLast := by
  have ht : t < idxs.length := by omega
  have hdropnil : idxs.drop (t + 1) = [] := by
    rw [ht1]
    exact List.drop_length idxs
  rw [bytesOfChunks_set_decomp idxs t j ht, bytesOfChunks_self_decomp idxs t ht, hdropnil]
  rw [show (bytesOfChunks [] : List (Fin 256)) = [] from rfl]
  rw [List.append_nil, List.append_nil]
  rw [show bytesOfChunks (idxs.take t) ++ [byteLo j, byteHi j]
      = (bytesOfChunks (idxs.take t) ++ [byteLo j]) ++ [byteHi j] by simp]
  rw [show bytesOfChunks (idxs.take t) ++ [byteLo (idxs.getD t 0), byteHi (idxs.getD t 0)]
      = (bytesOfChunks (idxs.take t) ++ [byteLo (idxs.getD t 0)])
          ++ [byteHi (idxs.getD t 0)] by simp]
  rw [List.dropLast_concat, List.dropLast_concat]
  rw [show byteLo j = byteLo (idxs.getD t 0) from Fin.ext hlo]

theorem recorded_eq_crc32s (data : List (Fin 256)) :
    toSigned32 (crc32u data % 65536 + 65536 * (crc32u data / 65536)) = crc32s data := by
  rw [show crc32u data % 65536 + 65536 * (crc32u data / 65536) = crc32u data by
    have := crc32u_lt data; omega]
  rfl

theorem crc32s_ne_of_crc32u_ne {x y : List (Fin 256)} (h : crc32u x ≠ crc32u y) :
    crc32s x ≠ crc32s y :=
  fun hs => h (toSigned32_inj (crc32u_lt x) (crc32u_lt y) hs)

/-! ## Error classification and lowercase-normalization lemmas -/

theorem stripMarkers_error_eq {input : List String} {e : Err}
    (h : stripMarkers input = Except.error e) : e = Err.indexError := by
  unfold stripMarkers at h
  split at h
  · injection h with h'
    exact h'.symm
  · split_ifs at h

theorem mapLookup_error_eq : ∀ {l : List String} {e : Err},
    mapLookup l = Except.error e → e = Err.unknownWord
  | [], e, h => by cases h
  | w :: rest, e, h => by
    unfold mapLookup at h
    cases hl : lookupWord w with
    | error e' =>
      rw [hl] at h
      injection h with h'
      rw [← h']
      exact lookupWord_err hl
    | ok i =>
      rw [hl] at h
      cases hm : mapLookup rest with
      | error e'' =>
        rw [hm] at h
        injection h with h'
        rw [← h']
        exact mapLookup_error_eq hm
      | ok is =>
        rw [hm] at h
        cases h

theorem checksumCheck_error_eq {cws : List String} {out : List (Fin 256)} {e : Err}
    (h : checksumCheck cws out = Except.error e) :
    e = Err.unknownWord ∨ e = Err.checksumMismatch := by
  unfold checksumCheck at h
  split at h
  · split at h
    · rename_i heq
      injection h with h'
      exact Or.inl (h' ▸ lookupWord_err heq)
    · split at h
      · rename_i heq
        injection h with h'
        exact Or.inl (h' ▸ lookupWord_err heq)
      · split_ifs at h
        injection h with h'
        exact Or.inr h'.symm
  · cases h

theorem decodeTail_error_eq {ws3 cws : List String} {isPad : Bool} {e : Err}
    (h : decodeTail ws3 cws isPad = Except.error e) :
    e = Err.unknownWord ∨ e = Err.checksumMismatch := by
  unfold decodeTail at h
  cases hm : mapLookup ws3 with
  | error e' =>
    rw [hm] at h
    injection h with h'
    exact Or.inl (h' ▸ mapLookup_error_eq hm)
  | ok idxs =>
    rw [hm] at h
    exact checksumCheck_error_eq h

/-- The recorded checksum words are either absent or exactly two. -/
theorem recordedCS_shape (ws : List String) :
    recordedCS ws = [] ∨ ∃ w1 w2, recordedCS ws = [w1, w2] := by
  unfold recordedCS
  split_ifs with h
  · refine Or.inr ?_
    have hlen : 3 < ws.length := by
      unfold hasCSMarker at h
      have := (Bool.and_eq_true _ _).mp h
      exact of_decide_eq_true this.1
    have hl2 : (ws.drop (ws.length - 2)).length = 2 := by
      rw [List.length_drop]
      omega
    exact List.length_eq_two.mp hl2
  · exact Or.inl rfl

/-- The components returned by a successful strip. -/
theorem strip_cws_shape {input ws3 cws : List String} {isPad : Bool}
    (hs : stripMarkers input = Except.ok (ws3, cws, isPad)) :
    cws = [] ∨ ∃ w1 w2, cws = [w1, w2] := by
  unfold stripMarkers at hs
  split at hs
  · cases hs
  · split_ifs at hs <;>
      (injection hs with hs'; injection hs' with _ hs''; injection hs'' with hc _;
        exact hc ▸ recordedCS_shape (input.map pyLower))

theorem toNat_charOfNat {n : Nat} (h : n.isValidChar) : (Char.ofNat n).toNat = n := by
  unfold Char.ofNat
  rw [dif_pos h]
  rfl

theorem toLower_idem (c : Char) : c.toLower.toLower = c.toLower := by
  by_cases h : c.toNat ≥ 65 ∧ c.toNat ≤ 90
  · have h1 : c.toLower = Char.ofNat (c.toNat + 32) := by
      show (if c.toNat ≥ 65 ∧ c.toNat ≤ 90 then Char.ofNat (c.toNat + 32) else c) = _
      rw [if_pos h]
    have hv : (c.toNat + 32).isValidChar := Or.inl (by omega)
    have h2 : c.toLower.toNat = c.toNat + 32 := by rw [h1, toNat_charOfNat hv]
    show (if c.toLower.toNat ≥ 65 ∧ c.toLower.toNat ≤ 90
      then Char.ofNat (c.toLower.toNat + 32) else c.toLower) = c.toLower
    rw [if_neg (by rw [h2]; omega)]
  · have h1 : c.toLower = c := by
      show (if c.toNat ≥ 65 ∧ c.toNat ≤ 90 then Char.ofNat (c.toNat + 32) else c) = c
      rw [if_neg h]
    rw [h1, h1]

theorem pyLower_idem (s : String) : pyLower (pyLower s) = pyLower s := by
  unfold pyLower
  show String.mk ((s.data.map Char.toLower).map Char.toLower) = _
  rw [List.map_map]
  exact congrArg String.mk (List.map_congr_left (fun c _ => toLower_idem c))

theorem stripMarkers_lower_invariant (input : List String) :
    stripMarkers (input.map pyLower) = stripMarkers input := by
  have hmm : (input.map pyLower).map pyLower = input.map pyLower := by
    rw [List.map_map]
    exact List.map_congr_left (fun a _ => pyLower_idem a)
  unfold stripMarkers
  rw [hmm]

theorem decodeWords_lower_invariant (input : List String) :
    decodeWords (input.map pyLower) = decodeWords input := by
  unfold decodeWords
  rw [stripMarkers_lower_invariant]

/-! ## The effect of a single-word mutation on a checksummed encoding -/

/-- Even-length data: replacing any single data word or checksum value word
of the checksummed encoding by a different wordlist word yields
ChecksumMismatch. -/
theorem mutation_even (data : List (Fin 256)) (hne : data ≠ []) (hpar : data.length % 2 = 0)
    (t j : Nat) (hj : j < 65536)
    (hpos : t < (toChunks (padIf data)).length
          ∨ t = (encodeWords data true).length - 2
          ∨ t = (encodeWords data true).length - 1)
    (hdiff : wordAt j ≠ (encodeWords data true).getD t "") :
    decodeWords ((encodeWords data true).set t (wordAt j))
      = Except.error Err.checksumMismatch := by
  have hpi : padIf data = data := by unfold padIf; rw [if_neg (by omega)]
  have hlt := crc32u_lt data
  have hl1 : crc32u data % 65536 < 65536 := by omega
  have hl2 : crc32u data / 65536 < 65536 := by omega
  have hidne : toChunks data ≠ [] := toChunks_ne_nil hne hpar
  have hm : 0 < (toChunks data).length := List.length_pos.mpr hidne
  have hbounds := toChunks_lt data
  have hEeq : encodeWords data true
      = (toChunks data).map wordAt
        ++ ["check", wordAt (crc32u data % 65536), wordAt (crc32u data / 65536)] := by
    rw [encodeWords_cs data, encodeWords_false_even hpar]
  have hElen : (encodeWords data true).length = (toChunks data).length + 3 := by
    rw [hEeq]; simp
  have hrecorded := recorded_eq_crc32s data
  have hdata : bytesOfChunks (toChunks data) = data := bytesOfChunks_toChunks data hpar
  rw [hpi] at hpos
  rcases hpos with ht | ht | ht
  · have hgetD : (encodeWords data true).getD t "" = wordAt ((toChunks data).getD t 0) := by
      rw [hEeq, List.getD_eq_getElem?_getD, List.getElem?_append_left (by simpa using ht),
          ← List.getD_eq_getElem?_getD, getD_map_wordAt ht]
    have hjc : j ≠ (toChunks data).getD t 0 := fun he => hdiff (by rw [hgetD, he])
    have hEset : (encodeWords data true).set t (wordAt j)
        = (((toChunks data).set t j).map wordAt)
          ++ ["check", wordAt (crc32u data % 65536), wordAt (crc32u data / 65536)] := by
      rw [hEeq, List.set_append_left _ _ (by simpa using ht), ← List.map_set]
    rw [hEset]
    have hc := decode_cs_core ((toChunks data).set t j) false (crc32u data % 65536)
      (crc32u data / 65536)
      (fun i hi => (List.mem_or_eq_of_mem_set hi).elim (fun hmm => hbounds i hmm)
        (fun he => he ▸ hj))
      (fun _ => List.ne_nil_of_length_pos (by rw [List.length_set]; omega))
      hl1 hl2
    simp only [Bool.false_eq_true, ite_false] at hc
    have h1 := crc_set_chunk_ne (toChunks data) t j ht hj hbounds hjc
    rw [hdata] at h1
    rw [hc, hrecorded, if_pos (Ne.symm (crc32s_ne_of_crc32u_ne h1))]
  · have htm : t = (toChunks data).length + 1 := by omega
    have hgetD : (encodeWords data true).getD t "" = wordAt (crc32u data % 65536) := by
      rw [hEeq, htm, List.getD_eq_getElem?_getD, List.getElem?_append_right (by simp)]
      rw [show (toChunks data).length + 1 - ((toChunks data).map wordAt).length = 1 by simp]
      rfl
    have hjl1 : j ≠ crc32u data % 65536 := fun he => hdiff (by rw [hgetD, he])
    have hEset : (encodeWords data true).set t (wordAt j)
        = (toChunks data).map wordAt
          ++ ["check", wordAt j, wordAt (crc32u data / 65536)] := by
      rw [hEeq, htm, List.set_append_right _ _ (by simp)]
      rw [show (toChunks data).length + 1 - ((toChunks data).map wordAt).length = 1 by simp]
      rfl
    rw [hEset]
    have hc := decode_cs_core (toChunks data) false j (crc32u data / 65536)
      hbounds (fun _ => hidne) hj hl2
    simp only [Bool.false_eq_true, ite_false] at hc
    rw [hc, hdata, if_pos]
    intro heqv
    have hlt2 : j + 65536 * (crc32u data / 65536) < 2 ^ 32 := by omega
    have heqv' : toSigned32 (j + 65536 * (crc32u data / 65536))
        = toSigned32 (crc32u data) := heqv
    have := toSigned32_inj hlt2 hlt heqv'
    omega
  · have htm : t = (toChunks data).length + 2 := by omega
    have hgetD : (encodeWords data true).getD t "" = wordAt (crc32u data / 65536) := by
      rw [hEeq, htm, List.getD_eq_getElem?_getD, List.getElem?_append_right (by simp)]
      rw [show (toChunks data).length + 2 - ((toChunks data).map wordAt).length = 2 by simp]
      rfl
    have hjl2 : j ≠ crc32u data / 65536 := fun he => hdiff (by rw [hgetD, he])
    have hEset : (encodeWords data true).set t (wordAt j)
        = (toChunks data).map wordAt
          ++ ["check", wordAt (crc32u data % 65536), wordAt j] := by
      rw [hEeq, htm, List.set_append_right _ _ (by simp)]
      rw [show (toChunks data).length + 2 - ((toChunks data).map wordAt).length = 2 by simp]
      rfl
    rw [hEset]
    have hc := decode_cs_core (toChunks data) false (crc32u data % 65536) j
      hbounds (fun _ => hidne) hl1 hj
    simp only [Bool.false_eq_true, ite_false] at hc
    rw [hc, hdata, if_pos]
    intro heqv
    have hlt2 : crc32u data % 65536 + 65536 * j < 2 ^ 32 := by omega
    have heqv' : toSigned32 (crc32u data % 65536 + 65536 * j)
        = toSigned32 (crc32u data) := heqv
    have := toSigned32_inj hlt2 hlt heqv'
    omega

/-- Odd-length (padded) data: replacing a data word or checksum value word
by a different wordlist word yields ChecksumMismatch, except for a
high-byte-only change to the final data chunk. -/
theorem mutation_odd_mismatch (data : List (Fin 256))
    (hpar : data.length % 2 = 1) (t j : Nat) (hj : j < 65536)
    (hpos : t < (toChunks (padIf data)).length
          ∨ t = (encodeWords data true).length - 2
          ∨ t = (encodeWords data true).length - 1)
    (hdiff : wordAt j ≠ (encodeWords data true).getD t "")
    (hexc : ¬(t + 1 = (toChunks (padIf data)).length
            ∧ j % 256 = (toChunks (padIf data)).getD t 0 % 256)) :
    decodeWords ((encodeWords data true).set t (wordAt j))
      = Except.error Err.checksumMismatch := by
  have hpi : padIf data = data ++ [0] := by unfold padIf; rw [if_pos hpar]
  have hlt := crc32u_lt data
  have hl1 : crc32u data % 65536 < 65536 := by omega
  have hl2 : crc32u data / 65536 < 65536 := by omega
  have hd'par : (data ++ [0]).length % 2 = 0 := by simp; omega
  have hidne : toChunks (data ++ [0]) ≠ [] := toChunks_ne_nil (by simp) hd'par
  have hm : 0 < (toChunks (data ++ [0])).length := List.length_pos.mpr hidne
  have hbounds := toChunks_lt (data ++ [0])
  have hEeq : encodeWords data true
      = ((toChunks (data ++ [0])).map wordAt ++ ["null"])
        ++ ["check", wordAt (crc32u data % 65536), wordAt (crc32u data / 65536)] := by
    rw [encodeWords_cs data, encodeWords_false_odd hpar]
  have hElen : (encodeWords data true).length = (toChunks (data ++ [0])).length + 4 := by
    rw [hEeq]; simp
  have hrecorded := recorded_eq_crc32s data
  have hdata : (bytesOfChunks (toChunks (data ++ [0]))).dropLast = data := by
    rw [bytesOfChunks_toChunks _ hd'par, List.dropLast_concat]
  rw [hpi] at hpos hexc
  rcases hpos with ht | ht | ht
  · have hb1 : t < ((toChunks (data ++ [0])).map wordAt ++ ["null"]).length := by
      simp; omega
    have hb2 : t < ((toChunks (data ++ [0])).map wordAt).length := by simpa using ht
    have hgetD : (encodeWords data true).getD t ""
        = wordAt ((toChunks (data ++ [0])).getD t 0) := by
      rw [hEeq, List.getD_eq_getElem?_getD, List.getElem?_append_left hb1,
          List.getElem?_append_left hb2, ← List.getD_eq_getElem?_getD, getD_map_wordAt ht]
    have hjc : j ≠ (toChunks (data ++ [0])).getD t 0 := fun he => hdiff (by rw [hgetD, he])
    have hEset : (encodeWords data true).set t (wordAt j)
        = (((toChunks (data ++ [0])).set t j).map wordAt ++ ["null"])
          ++ ["check", wordAt (crc32u data % 65536), wordAt (crc32u data / 65536)] := by
      rw [hEeq, List.set_append_left _ _ hb1, List.set_append_left _ _ hb2, ← List.map_set]
    rw [hEset]
    have hc := decode_cs_core ((toChunks (data ++ [0])).set t j) true (crc32u data % 65536)
      (crc32u data / 65536)
      (fun i hi => (List.mem_or_eq_of_mem_set hi).elim (fun hmm => hbounds i hmm)
        (fun he => he ▸ hj))
      (by simp) hl1 hl2
    simp only [eq_self_iff_true, ite_true] at hc
    rcases Nat.lt_or_ge (t + 1) (toChunks (data ++ [0])).length with hmid | hlast
    · have h1 := crc_set_mid_dropLast_ne (toChunks (data ++ [0])) t j hmid hj hbounds hjc
      rw [hdata] at h1
      rw [hc, hrecorded, if_pos (Ne.symm (crc32s_ne_of_crc32u_ne h1))]
    · have ht1 : t + 1 = (toChunks (data ++ [0])).length := by omega
      have hlo : j % 256 ≠ (toChunks (data ++ [0])).getD t 0 % 256 :=
        fun he => hexc ⟨ht1, he⟩
      have h1 := crc_set_last_dropLast_ne (toChunks (data ++ [0])) t j ht1 hlo
      rw [hdata] at h1
      rw [hc, hrecorded, if_pos (Ne.symm (crc32s_ne_of_crc32u_ne h1))]
  · have htm : t = (toChunks (data ++ [0])).length + 2 := by omega
    have hgetD : (encodeWords data true).getD t "" = wordAt (crc32u data % 65536) := by
      rw [hEeq, htm, List.getD_eq_getElem?_getD, List.getElem?_append_right (by simp)]
      rw [show (toChunks (data ++ [0])).length + 2
          - ((toChunks (data ++ [0])).map wordAt ++ ["null"]).length = 1 by simp]
      rfl
    have hjl1 : j ≠ crc32u data % 65536 := fun he => hdiff (by rw [hgetD, he])
    have hEset : (encodeWords data true).set t (wordAt j)
        = ((toChunks (data ++ [0])).map wordAt ++ ["null"])
          ++ ["check", wordAt j, wordAt (crc32u data / 65536)] := by
      rw [hEeq, htm, List.set_append_right _ _ (by simp)]
      rw [show (toChunks (data ++ [0])).length + 2
          - ((toChunks (data ++ [0])).map wordAt ++ ["null"]).length = 1 by simp]
      rfl
    rw [hEset]
    have hc := decode_cs_core (toChunks (data ++ [0])) true j (crc32u data / 65536)
      hbounds (by simp) hj hl2
    simp only [eq_self_iff_true, ite_true] at hc
    rw [hdata] at hc
    rw [hc, if_pos]
    intro heqv
    have hlt2 : j + 65536 * (crc32u data / 65536) < 2 ^ 32 := by omega
    have heqv' : toSigned32 (j + 65536 * (crc32u data / 65536))
        = toSigned32 (crc32u data) := heqv
    have := toSigned32_inj hlt2 hlt heqv'
    omega
  · have htm : t = (toChunks (data ++ [0])).length + 3 := by omega
    have hgetD : (encodeWords data true).getD t "" = wordAt (crc32u data / 65536) := by
      rw [hEeq, htm, List.getD_eq_getElem?_getD, List.getElem?_append_right (by simp)]
      rw [show (toChunks (data ++ [0])).length + 3
          - ((toChunks (data ++ [0])).map wordAt ++ ["null"]).length = 2 by simp]
      rfl
    have hjl2 : j ≠ crc32u data / 65536 := fun he => hdiff (by rw [hgetD, he])
    have hEset : (encodeWords data true).set t (wordAt j)
        = ((toChunks (data ++ [0])).map wordAt ++ ["null"])
          ++ ["check", wordAt (crc32u data % 65536), wordAt j] := by
      rw [hEeq, htm, List.set_append_right _ _ (by simp)]
      rw [show (toChunks (data ++ [0])).length + 3
          - ((toChunks (data ++ [0])).map wordAt ++ ["null"]).length = 2 by simp]
      rfl
    rw [hEset]
    have hc := decode_cs_core (toChunks (data ++ [0])) true (crc32u data % 65536) j
      hbounds (by simp) hl1 hj
    simp only [eq_self_iff_true, ite_true] at hc
    rw [hdata] at hc
    rw [hc, if_pos]
    intro heqv
    have hlt2 : crc32u data % 65536 + 65536 * j < 2 ^ 32 := by omega
    have heqv' : toSigned32 (crc32u data % 65536 + 65536 * j)
        = toSigned32 (crc32u data) := heqv
    have := toSigned32_inj hlt2 hlt heqv'
    omega

/-- Odd-length (padded) data: replacing the final data word by one whose
chunk agrees on the low byte slips through — decode succeeds and returns
the original data. -/
theorem mutation_odd_accept (data : List (Fin 256)) (hpar : data.length % 2 = 1)
    (t j : Nat) (hj : j < 65536)
    (ht1 : t + 1 = (toChunks (padIf data)).length)
    (hlo : j % 256 = (toChunks (padIf data)).getD t 0 % 256) :
    decodeWords ((encodeWords data true).set t (wordAt j)) = Except.ok data := by
  have hpi : padIf data = data ++ [0] := by unfold padIf; rw [if_pos hpar]
  have hlt := crc32u_lt data
  have hl1 : crc32u data % 65536 < 65536 := by omega
  have hl2 : crc32u data / 65536 < 65536 := by omega
  have hd'par : (data ++ [0]).length % 2 = 0 := by simp; omega
  have hbounds := toChunks_lt (data ++ [0])
  rw [hpi] at ht1 hlo
  have ht : t < (toChunks (data ++ [0])).length := by omega
  have hEeq : encodeWords data true
      = ((toChunks (data ++ [0])).map wordAt ++ ["null"])
        ++ ["check", wordAt (crc32u data % 65536), wordAt (crc32u data / 65536)] := by
    rw [encodeWords_cs data, encodeWords_false_odd hpar]
  have hrecorded := recorded_eq_crc32s data
  have hdata : (bytesOfChunks (toChunks (data ++ [0]))).dropLast = data := by
    rw [bytesOfChunks_toChunks _ hd'par, List.dropLast_concat]
  have hb1 : t < ((toChunks (data ++ [0])).map wordAt ++ ["null"]).length := by
    simp; omega
  have hb2 : t < ((toChunks (data ++ [0])).map wordAt).length := by simpa using ht
  have hEset : (encodeWords data true).set t (wordAt j)
      = (((toChunks (data ++ [0])).set t j).map wordAt ++ ["null"])
        ++ ["check", wordAt (crc32u data % 65536), wordAt (crc32u data / 65536)] := by
    rw [hEeq, List.set_append_left _ _ hb1, List.set_append_left _ _ hb2, ← List.map_set]
  rw [hEset]
  have hc := decode_cs_core ((toChunks (data ++ [0])).set t j) true (crc32u data % 65536)
    (crc32u data / 65536)
    (fun i hi => (List.mem_or_eq_of_mem_set hi).elim (fun hmm => hbounds i hmm)
      (fun he => he ▸ hj))
    (by simp) hl1 hl2
  simp only [eq_self_iff_true, ite_true] at hc
  have heq := bytes_set_last_dropLast_eq (toChunks (data ++ [0])) t j ht1 hlo
  rw [heq, hdata, hrecorded] at hc
  rw [hc, if_neg (fun hch => hch rfl)]

/-! ## Claim theorems -/

/-- Auxiliary: at b = b"" even the word-sequence round trip fails:
without a checksum, decoding the empty word sequence evaluates `words[-1]`
on an empty list and raises IndexError; with a checksum the three-word
output `[check, w0, w0]` fails the `len(words) > 3` guard, so the marker is
never stripped and is looked up as a data word, raising UnknownWord. -/
theorem decode_encodeWords_empty_errors :
    decodeWords (encodeWords [] false) = Except.error Err.indexError ∧
    decodeWords (encodeWords [] true) = Except.error Err.unknownWord := by
  constructor <;> rfl

/-- Auxiliary: the encode/decode algorithms themselves (the word sequence
accumulated by encode before its broken return statement, fed to the word
lookup of decode) do round-trip every nonempty byte sequence `b`, with and
without a checksum, for even and odd length, over the modelled version-1
wordlist provider.  This is the behaviour the claim describes; the actual
`encode` never reaches the point of returning this sequence. -/
theorem roundtrip_words (data : List (Fin 256)) (hne : data ≠ []) (cs : Bool) :
    decodeWords (encodeWords data cs) = Except.ok data := by
  cases cs
  · exact roundtrip_nocs data hne
  · exact roundtrip_cs data hne

/-- Auxiliary evaluation of the word-sequence round trip at the concrete
odd-length input b"t" with a checksum. -/
theorem roundtrip_words_at_t :
    ([(116 : Fin 256)] ≠ []) ∧
    decodeWords (encodeWords [(116 : Fin 256)] true) = Except.ok [(116 : Fin 256)] :=
  ⟨by simp, roundtrip_words [(116 : Fin 256)] (by simp) true⟩

/-- C1: `decode(encode(b))` never returns `b` — for every byte sequence
`b`, every checksum flag, and both return modes, `encode` raises NameError
at its return statement (the unbound name `string`), so the composition
fails inside `encode` before `decode` is ever reached. -/
theorem c1_composition_name_error (data : List (Fin 256)) (cs rs : Bool) :
    (encode data cs rs).bind decodeWords = Except.error Err.nameError := rfl

/-- C2: `encode(b"test")` with default flags does not return
"handset interview": the accumulated word sequence is exactly
["handset", "interview"], but the return statement
`return ' '.join(encoded_output) if string else encoded_output` reads the
unbound name `string` (the parameter is `return_string`) and raises
NameError, so neither the string view nor the list view is ever returned. -/
theorem c2_encode_name_error :
    encode [116, 101, 115, 116] false true = Except.error Err.nameError ∧
    encodeWords [116, 101, 115, 116] false = ["handset", "interview"] := by
  constructor <;> rfl

/-- C3: decoding an empty input does not return an empty byte sequence;
`words[-1] == PADDING_WORD` indexes before the start of the empty sequence
and raises IndexError. -/
theorem c3_decode_empty_raises :
    decodeWords [] = Except.error Err.indexError := rfl

/-- C4 counterexample: at b"test" the two words the encoder emits after the
checksum marker are not the big-endian halves the claim describes. -/
theorem c4_big_endian_counterexample :
    encodeWords [116, 101, 115, 116] true ≠
      encodeWords [116, 101, 115, 116] false ++ ["check"] ++
        checksumWordsBE [116, 101, 115, 116] := by
  decide

/-- C4 (amended): the two words following the checksum marker encode the
32-bit CRC-32 of the original unpadded data split into two 2-byte
little-endian-packed halves, low half first, each half independently mapped
via the chunk-to-word lookup. -/
theorem c4_checksum_words_le (data : List (Fin 256)) :
    encodeWords data true =
      encodeWords data false ++
        ["check", wordAt (crc32u data % 65536), wordAt (crc32u data / 65536)] :=
  encodeWords_cs data

/-- C5: the encoder packs the CRC-32 as a 4-byte little-endian signed 32-bit
integer split as bytes 0–1 / 2–3, and the decoder unpacks the identical
layout: unpack∘pack is the identity on the whole signed 32-bit range, and
the decoder's reconstruction of the encoder's two checksum chunks recovers
exactly the signed CRC-32 of the unpadded data. -/
theorem c5_checksum_layout :
    (∀ v : Int, -(2 ^ 31) ≤ v → v < 2 ^ 31 → unpackInt32 (packInt32 v) = v) ∧
    (∀ data : List (Fin 256),
      unpackInt32 (intToBytes (crc32u data % 65536) ++ intToBytes (crc32u data / 65536))
        = crc32s data) := by
  constructor
  · intro v h1 h2
    obtain ⟨g0, g1, g2, g3⟩ := packInt32_getD v
    unfold unpackInt32
    rw [g0, g1, g2, g3]
    show toSigned32 ((v % (2 ^ 32 : Int)).toNat % 256
      + 256 * ((v % (2 ^ 32 : Int)).toNat / 256 % 256)
      + 65536 * ((v % (2 ^ 32 : Int)).toNat / 65536 % 256)
      + 16777216 * ((v % (2 ^ 32 : Int)).toNat / 16777216 % 256)) = v
    have hsum : (v % (2 ^ 32 : Int)).toNat % 256
      + 256 * ((v % (2 ^ 32 : Int)).toNat / 256 % 256)
      + 65536 * ((v % (2 ^ 32 : Int)).toNat / 65536 % 256)
      + 16777216 * ((v % (2 ^ 32 : Int)).toNat / 16777216 % 256)
        = (v % (2 ^ 32 : Int)).toNat := by omega
    rw [hsum]
    unfold toSigned32
    split_ifs with hc <;> omega
  · intro data
    have hlt := crc32u_lt data
    rw [unpackInt32_chunks (by omega) (by omega)]
    rw [show crc32u data % 65536 + 65536 * (crc32u data / 65536) = crc32u data by omega]
    rfl

/-- C5 witness: unpack∘pack fixes the negative checksum value −5, and the
decoder's reconstruction at the concrete input b"te". -/
theorem c5_checksum_layout_witness :
    (-(2 ^ 31 : Int) ≤ -5) ∧ ((-5 : Int) < 2 ^ 31) ∧
    unpackInt32 (packInt32 (-5)) = -5 :=
  ⟨by decide, by decide, c5_checksum_layout.1 (-5) (by decide) (by decide)⟩

/-- C10: when the padding marker is the last word, decode unconditionally
drops the final output byte — with no check that the dropped byte is zero —
so any data-word body followed by "null" is accepted and decodes to the
truncated buffer, even when the implied pad byte is nonzero (a sequence
`encode` never produces). -/
theorem c10_pad_byte_dropped (idxs : List Nat) (hb : ∀ i ∈ idxs, i < 65536) :
    decodeWords (idxs.map wordAt ++ ["null"]) =
      Except.ok ((bytesOfChunks idxs).dropLast) := by
  have hc := decode_nocs_core idxs true hb (by simp)
  simpa using hc

/-- C10 witness: chunk 463 = 0x01CF has a nonzero high (pad) byte; its word
followed by "null" still decodes, to the single byte 0xCF. -/
theorem c10_pad_byte_witness :
    (∀ i ∈ [463], i < 65536) ∧
    decodeWords ([463].map wordAt ++ ["null"]) =
      Except.ok ((bytesOfChunks [463]).dropLast) :=
  ⟨by decide, c10_pad_byte_dropped [463] (by decide)⟩

/-- C7 counterexample: the cache is one process-wide slot, not keyed by
version.  With version 1's list already cached, requesting version 2
returns version 1's (different) list, and requesting version 7 — for which
no resource exists at all — succeeds instead of failing with
InvalidWordlist. -/
theorem c7_cache_counterexample :
    lazilyLoadWordlist
        (fun v => if v = 1 then some ("alpha" :: List.replicate 65535 "alpha")
                  else if v = 2 then some ("beta" :: List.replicate 65535 "beta")
                  else none)
        2 ("alpha" :: List.replicate 65535 "alpha")
      = Except.ok ("alpha" :: List.replicate 65535 "alpha",
                   "alpha" :: List.replicate 65535 "alpha") ∧
    ("alpha" :: List.replicate 65535 "alpha") ≠ ("beta" :: List.replicate 65535 "beta") ∧
    lazilyLoadWordlist (fun _ => none) 7 ("alpha" :: List.replicate 65535 "alpha")
      = Except.ok ("alpha" :: List.replicate 65535 "alpha",
                   "alpha" :: List.replicate 65535 "alpha") := by
  refine ⟨rfl, ?_, rfl⟩
  intro h
  injection h with h1 _
  exact absurd h1 (by decide)

/-- C7 (amended): with an empty cache, loading fails with InvalidWordlist
when no resource exists for the version or the resource's length is not
65536, and a successful load caches the list; but the cache is a single
process-wide slot: any non-empty cache is returned as-is for every
subsequent call, whatever the requested version. -/
theorem c7_cache_behavior :
    (∀ (res : Nat → Option (List String)) (v : Nat),
       res v = none → lazilyLoadWordlist res v [] = Except.error Err.invalidWordlist) ∧
    (∀ (res : Nat → Option (List String)) (v : Nat) (ws : List String),
       res v = some ws → ws.length ≠ WORDLIST_SIZE →
       lazilyLoadWordlist res v [] = Except.error Err.invalidWordlist) ∧
    (∀ (res : Nat → Option (List String)) (v : Nat) (ws : List String),
       res v = some ws → ws.length = WORDLIST_SIZE →
       lazilyLoadWordlist res v [] = Except.ok (ws, ws)) ∧
    (∀ (res : Nat → Option (List String)) (v : Nat) (cache : List String),
       cache ≠ [] → lazilyLoadWordlist res v cache = Except.ok (cache, cache)) := by
  refine ⟨?_, ?_, ?_, ?_⟩
  · intro res v h
    unfold lazilyLoadWordlist
    rw [h]
    rfl
  · intro res v ws h hlen
    unfold lazilyLoadWordlist
    rw [h]
    by_cases hemp : ws.isEmpty
    · simp [hemp]
    · simp only [List.isEmpty_nil, if_pos rfl]
      simp [hemp, hlen]
  · intro res v ws h hlen
    have hemp : ws.isEmpty = false := by
      cases ws with
      | nil => simp [WORDLIST_SIZE] at hlen
      | cons a t => rfl
    unfold lazilyLoadWordlist
    rw [h]
    simp [hemp, hlen]
  · intro res v cache hc
    have hemp : cache.isEmpty = false := by
      cases cache with
      | nil => exact absurd rfl hc
      | cons a t => rfl
    unfold lazilyLoadWordlist
    simp [hemp]

/-- C7 witness: a failing cold-cache load of a version with no resource, and
a warm-cache call returning the cached list. -/
theorem c7_cache_behavior_witness :
    ((fun _ : Nat => (none : Option (List String))) 3 = none) ∧
    lazilyLoadWordlist (fun _ => none) 3 [] = Except.error Err.invalidWordlist ∧
    (["x"] ≠ ([] : List String)) ∧
    lazilyLoadWordlist (fun _ => none) 9 ["x"] = Except.ok (["x"], ["x"]) :=
  ⟨rfl, c7_cache_behavior.1 _ 3 rfl, by simp,
    c7_cache_behavior.2.2.2 _ 9 ["x"] (by simp)⟩

/-- C8 counterexample: "null" is not in the loaded wordlist, yet a sequence
containing it decodes without error — the trailing marker is stripped by
position and never looked up — so "decode fails with UnknownWord whenever
the input contains a word not present in the wordlist" is false as stated. -/
theorem c8_marker_counterexample :
    indexOfWord "null" = none ∧
    decodeWords ["handset", "interview", "null"] = Except.ok [116, 101, 115] := by
  constructor <;> rfl

/-- C8 (amended): after the positional stripping of the checksum triple and
the trailing padding marker, any remaining word (including the two recorded
checksum words) that is absent from the wordlist makes decode fail with
UnknownWord; and lookup is case-insensitive — decode normalizes every word
to lowercase first, so lowercasing the input never changes the result. -/
theorem c8_unknown_word_rejection :
    (∀ (input ws3 cws : List String) (isPad : Bool),
       stripMarkers input = Except.ok (ws3, cws, isPad) →
       (∃ w ∈ ws3 ++ cws, indexOfWord w = none) →
       decodeWords input = Except.error Err.unknownWord) ∧
    (∀ input : List String, decodeWords (input.map pyLower) = decodeWords input) := by
  constructor
  · rintro input ws3 cws isPad hs ⟨b, hb, hnone⟩
    rw [decodeWords_of_strip hs]
    unfold decodeTail
    rcases List.mem_append.mp hb with hmem | hmem
    · rw [mapLookup_unknown ws3 ⟨b, hmem, hnone⟩]
    · rcases strip_cws_shape hs with hc | ⟨w1, w2, hc⟩
      · subst hc; simp at hmem
      · subst hc
        cases hml : mapLookup ws3 with
        | error e =>
          rw [mapLookup_error_eq hml]
        | ok idxs =>
          show checksumCheck [w1, w2] _ = _
          rw [checksumCheck_pair_eq]
          rcases (by simpa using hmem : b = w1 ∨ b = w2) with hb1 | hb2
          · subst hb1
            have hl : lookupWord b = Except.error Err.unknownWord := by
              unfold lookupWord
              rw [hnone]
            rw [hl]
          · subst hb2
            have hl : lookupWord b = Except.error Err.unknownWord := by
              unfold lookupWord
              rw [hnone]
            rw [hl]
            cases hl1 : lookupWord w1 with
            | error e1 =>
              rw [lookupWord_err hl1]
            | ok i1 =>
              rfl
  · intro input
    unfold decodeWords
    rw [stripMarkers_lower_invariant]

/-- C8 witness: a stripped sequence containing a word absent from the
wordlist is rejected with UnknownWord, and lowercasing an upper-case input
does not change the decode result. -/
theorem c8_unknown_word_witness :
    stripMarkers ["handset", "zzzzz"] = Except.ok (["handset", "zzzzz"], [], false) ∧
    (∃ w ∈ ["handset", "zzzzz"] ++ ([] : List String), indexOfWord w = none) ∧
    decodeWords ["handset", "zzzzz"] = Except.error Err.unknownWord ∧
    decodeWords (["HANDSET", "interview"].map pyLower) = decodeWords ["HANDSET", "interview"] :=
  ⟨rfl, ⟨"zzzzz", by decide, rfl⟩,
    c8_unknown_word_rejection.1 ["handset", "zzzzz"] ["handset", "zzzzz"] [] false rfl
      ⟨"zzzzz", by decide, rfl⟩,
    c8_unknown_word_rejection.2 ["HANDSET", "interview"]⟩

/-- C9: neither entry point has any size-limit parameter or check: `encode`
accepts no `max_bytes` and `decode` no `max_words` (test calls passing them
raise TypeError), and no execution path of either function produces
SizeLimitExceeded. -/
theorem c9_no_size_limit :
    (∀ (data : List (Fin 256)) (cs rs : Bool),
       encode data cs rs ≠ Except.error Err.sizeLimitExceeded) ∧
    (∀ input : List String, decodeWords input ≠ Except.error Err.sizeLimitExceeded) := by
  constructor
  · intro data cs rs h
    unfold encode at h
    injection h with h'
    cases h'
  · intro input h
    unfold decodeWords at h
    cases hsm : stripMarkers input with
    | error e =>
      rw [hsm] at h
      injection h with h'
      subst h'
      exact absurd (stripMarkers_error_eq hsm) (by decide)
    | ok triple =>
      obtain ⟨ws3, cws, isPad⟩ := triple
      rw [hsm] at h
      rcases decodeTail_error_eq h with h' | h' <;> simp_all

/-- C6 counterexample: in the checksummed encoding of the single byte b"t",
replacing the data word (neither the padding nor the checksum marker) by the
different wordlist word of index 372 = 0x174 — same low byte, different
high byte — makes decode succeed and return the original data, not fail
with ChecksumMismatch. -/
theorem c6_pad_byte_counterexample :
    wordAt 372 ≠ wordAt 116 ∧
    (encodeWords [(116 : Fin 256)] true).getD 0 "" = wordAt 116 ∧
    decodeWords ((encodeWords [(116 : Fin 256)] true).set 0 (wordAt 372)) =
      Except.ok [(116 : Fin 256)] := by
  refine ⟨by decide, by decide, ?_⟩
  rfl

/-- C6 (amended): in every checksummed encoding of nonempty data, replacing
any single word other than the padding and checksum markers (a data word or
one of the two checksum value words) by a different word of the wordlist
makes decode fail with ChecksumMismatch — except when the data length is
odd, the replaced word is the final data word, and the replacement chunk
agrees with the original on its low byte: then the corruption sits entirely
in the synthetic pad byte, and decode silently succeeds and returns the
original data. -/
theorem c6_mutation_mismatch (data : List (Fin 256)) (hne : data ≠ []) (t j : Nat)
    (hj : j < 65536)
    (hpos : t < (toChunks (padIf data)).length
          ∨ t = (encodeWords data true).length - 2
          ∨ t = (encodeWords data true).length - 1)
    (hdiff : wordAt j ≠ (encodeWords data true).getD t "") :
    (¬(data.length % 2 = 1 ∧ t + 1 = (toChunks (padIf data)).length
        ∧ j % 256 = (toChunks (padIf data)).getD t 0 % 256) →
      decodeWords ((encodeWords data true).set t (wordAt j))
        = Except.error Err.checksumMismatch) ∧
    ((data.length % 2 = 1 ∧ t + 1 = (toChunks (padIf data)).length
        ∧ j % 256 = (toChunks (padIf data)).getD t 0 % 256) →
      decodeWords ((encodeWords data true).set t (wordAt j)) = Except.ok data) := by
  constructor
  · intro hexc
    rcases Nat.mod_two_eq_zero_or_one data.length with hpar | hpar
    · exact mutation_even data hne hpar t j hj hpos hdiff
    · exact mutation_odd_mismatch data hpar t j hj hpos hdiff
        (fun hx => hexc ⟨hpar, hx.1, hx.2⟩)
  · rintro ⟨hpar, ht1, hlo⟩
    exact mutation_odd_accept data hpar t j hj ht1 hlo

/-- C6 witness: in the checksummed encoding of b"te", replacing the data
word "handset" by the different wordlist word "interview" is caught as a
ChecksumMismatch. -/
theorem c6_mutation_witness :
    ([(116 : Fin 256), 101] ≠ ([] : List (Fin 256))) ∧
    decodeWords ((encodeWords [(116 : Fin 256), 101] true).set 0 (wordAt 29811)) =
      Except.error Err.checksumMismatch :=
  ⟨by decide,
    (c6_mutation_mismatch [(116 : Fin 256), 101] (by decide) 0 29811 (by decide)
      (Or.inl (by decide)) (by decide)).1 (by decide)⟩

end HumanEncoding
